import Mathlib

/-!
Shallow embedding of the Nadder lexer (`src/lex.ts`): the generic scanner
built by `newLexer` together with the language-specific layer `NadderLexer`.

JavaScript strings are modelled as lists of UTF-16 code units (`List Nat`);
`start`/`pos` index code units, exactly as in the source.  `nextChar` decodes
a full code point via `codePointAt` and records its unit width, as the source
does.  The indentation stack is a Lean list whose head is the array's top
(JS `push`/`pop` act on the array end); `pop` of an empty array yields JS
`undefined`, modelled by `Option Nat` together with the JS comparison
semantics (`x < undefined`, `x === undefined` and `x > undefined` are all
false for a number `x`).

The `journal` field is observation-only instrumentation: it records, in
order, every emitted token value and every span discarded by `ignore`.  No
definition reads it, so it does not influence the lexer's behaviour.
-/

namespace Nadder

/-- UTF-16 code units of a single code point (surrogate pair when ≥ 0x10000). -/
def cpUnits (cp : Nat) : List Nat :=
  if cp < 65536 then [cp]
  else [55296 + (cp - 65536) / 1024, 56320 + (cp - 65536) % 1024]

/-- UTF-16 code units of a Lean string, for writing concrete inputs/messages. -/
def strUnits (s : String) : List Nat :=
  (s.data.map (fun c => cpUnits c.toNat)).flatten

/-- `eof = String.fromCharCode(-1)`: ToUint16(-1) = 0xFFFF, an in-band sentinel. -/
def eofCp : Nat := 65535

/-- Code units of `alpha = "_abc...xyzABC...XYZ"`. -/
def alphaCps : List Nat :=
  95 :: ((List.range 26).map (fun i => 97 + i) ++ (List.range 26).map (fun i => 65 + i))

/-- Code units of `digit = "0123456789"`. -/
def digitCps : List Nat := (List.range 10).map (fun i => 48 + i)

/-- Code units of `alphanumeric = alpha + digit`. -/
def alphanumericCps : List Nat := alphaCps ++ digitCps

/-- Code units of the blank-line characters `"\n\r"`. -/
def newlineCps : List Nat := [10, 13]

/-- `enum TokenType` of the Nadder layer. -/
inductive TokenType
  | Identifier | Int
  | Assign | Plus | Minus | Asterisk | Slash
  | LT | GT | EQ | NEQ
  | Comma | Colon | LParen | RParen
  | Newline | Indent | Dedent
  | Def | Lambda | Let | True | False | If | Else | Not | Return
  deriving DecidableEq

/-- `TokenTag<T> = T | "EOF" | "Illegal"`.  `jsInherited name` stands for the
value `Object.prototype[name]` that a bare index lookup on the keyword object
literal returns for an inherited property name: a truthy function/object that
is none of the `TokenType` numbers and neither of the two sentinel strings. -/
inductive TokenTag
  | lang (t : TokenType)
  | EOF
  | Illegal
  | jsInherited (name : List Nat)
  deriving DecidableEq

/-- A token: type tag plus literal value (code units). -/
structure Token where
  type : TokenTag
  value : List Nat
  deriving DecidableEq

/-- The scanner state closed over by `newLexer`: input, the `start`/`pos`
cursor pair, the width of the last read code point, and the FIFO token queue.
`journal` is ghost instrumentation (see module docstring). -/
structure LexSt where
  input : List Nat
  start : Nat
  pos : Nat
  width : Nat
  tokens : List Token
  journal : List (List Nat)
  deriving DecidableEq

/-- `pending(): input.slice(start, pos)`. -/
def pending (s : LexSt) : List Nat :=
  (s.input.drop s.start).take (s.pos - s.start)

/-- `emit(t)`: push `{type: t, value: pending()}` and reset `start = pos`. -/
def emit (t : TokenTag) (s : LexSt) : LexSt :=
  { s with tokens := s.tokens ++ [⟨t, pending s⟩],
           journal := s.journal ++ [pending s],
           start := s.pos }

/-- `ignore()`: discard pending input (`start = pos`). -/
def ignore (s : LexSt) : LexSt :=
  { s with journal := s.journal ++ [pending s], start := s.pos }

def isHighSurrogate (u : Nat) : Bool := decide (55296 ≤ u ∧ u ≤ 56319)

def isLowSurrogate (u : Nat) : Bool := decide (56320 ≤ u ∧ u ≤ 57343)

/-- `input.codePointAt(p)`: the code unit at `p`, or the decoded code point
when `p` holds a high surrogate followed by a low surrogate. -/
def codePointAt (input : List Nat) (p : Nat) : Nat :=
  match input.get? p with
  | none => 0
  | some u =>
    if isHighSurrogate u then
      match input.get? (p + 1) with
      | none => u
      | some u2 =>
        if isLowSurrogate u2 then 65536 + (u - 55296) * 1024 + (u2 - 56320) else u
    else u

/-- Unit width of a code point (`String.fromCodePoint(cp).length`). -/
def cpWidth (cp : Nat) : Nat := if 65536 ≤ cp then 2 else 1

/-- `nextChar()`: at end of input set `width = 0` and return the eof sentinel;
otherwise decode the code point at `pos`, record its width, advance by it. -/
def nextChar (s : LexSt) : Nat × LexSt :=
  if s.input.length ≤ s.pos then (eofCp, { s with width := 0 })
  else
    (codePointAt s.input s.pos,
     { s with width := cpWidth (codePointAt s.input s.pos),
              pos := s.pos + cpWidth (codePointAt s.input s.pos) })

/-- `backUp()`: `pos -= width` (Nat subtraction; in every call site of the
source, `backUp` directly follows a `nextChar`, so `width ≤ pos`). -/
def backUp (s : LexSt) : LexSt :=
  { s with pos := s.pos - s.width }

/-- `peek()`: `nextChar` then `backUp`. -/
def peek (s : LexSt) : Nat × LexSt :=
  ((nextChar s).1, backUp (nextChar s).2)

/-- `accept(valid)`: advance one code point iff it lies in `valid`.  The
source tests `valid.indexOf(nextChar()) >= 0`; for the ASCII alphabets the
lexer passes, substring search coincides with code-point membership. -/
def accept (valid : List Nat) (s : LexSt) : Bool × LexSt :=
  if (nextChar s).1 ∈ valid then (true, (nextChar s).2)
  else (false, backUp (nextChar s).2)

/-- The `while (accept(valid)) {}` loop of `acceptRun`, fuelled.  Each
successful `accept` over an ASCII alphabet advances `pos` by one unit, so the
fuel `input.length + 1 - pos` supplied by `acceptRun` never runs out before
the loop's own exit condition. -/
def acceptRunGo (valid : List Nat) : Nat → LexSt → LexSt
  | 0, s => s
  | fuel + 1, s =>
    if (accept valid s).1 then acceptRunGo valid fuel (accept valid s).2
    else (accept valid s).2

/-- `acceptRun(valid)`: greedy maximal run of members of `valid`. -/
def acceptRun (valid : List Nat) (s : LexSt) : LexSt :=
  acceptRunGo valid (s.input.length + 1 - s.pos) s

/-- `errorf(message)`: push an Illegal token carrying `message`. -/
def errorf (message : List Nat) (s : LexSt) : LexSt :=
  { s with tokens := s.tokens ++ [⟨TokenTag.Illegal, message⟩] }

/-- The named states of `NadderLexer` (the terminal state is `none`). -/
inductive StateTag
  | indentation | expression | identifier | number
  deriving DecidableEq

/-- `NadderLexer` state: the underlying scanner plus the indentation stack
(list head = array top). -/
structure NSt where
  lex : LexSt
  indents : List Nat
  deriving DecidableEq

/-- `array.pop()`: yields `undefined` (`none`) on an empty array. -/
def popJS : List Nat → Option Nat × List Nat
  | [] => (none, [])
  | t :: rest => (some t, rest)

/-- JS `a < b` when `b` may be `undefined` (then false). -/
def ltU (a : Nat) : Option Nat → Bool
  | some b => decide (a < b)
  | none => false

/-- JS `a === b` when `b` may be `undefined` (then false). -/
def eqU (a : Nat) : Option Nat → Bool
  | some b => decide (a = b)
  | none => false

/-- JS `a > b` when `b` may be `undefined` (then false). -/
def gtU (a : Nat) : Option Nat → Bool
  | some b => decide (b < a)
  | none => false

/-- The dedent loop `for (let i = indents.length; i >= 0; i--) {...}` of
`lexIndentation`, with `iters` the number of remaining iterations (the `i`
counter is otherwise unused).  Returns the scanner, the remaining stack, and
whether the loop returned via `errorf`. -/
def dedentLoop (indent : Nat) : Nat → Option Nat → List Nat → LexSt →
    LexSt × List Nat × Bool
  | 0, _, indents, lex => (lex, indents, false)
  | iters + 1, prevIndent, indents, lex =>
    if ltU indent prevIndent then
      dedentLoop indent iters (popJS indents).1 (popJS indents).2
        (emit (TokenTag.lang .Dedent) lex)
    else if eqU indent prevIndent then (lex, indents, false)
    else (errorf (strUnits "inconsistent dedent") lex, indents, true)

/-- `lexIndentation`: discard blank lines, measure the space run, then emit
Indent/Dedent tokens against the indentation stack. -/
def lexIndentation (n : NSt) : NSt × Option StateTag :=
  let l0 := ignore (acceptRun newlineCps n.lex)
  let l1 := acceptRun [32] l0
  let indent := (pending l1).length
  let prevIndent := (popJS n.indents).1
  let indents1 := (popJS n.indents).2
  if ltU indent prevIndent then
    let r := dedentLoop indent (indents1.length + 1) prevIndent indents1 l1
    if r.2.2 then (⟨r.1, r.2.1⟩, none)
    else (⟨r.1, indent :: r.2.1⟩, some StateTag.expression)
  else if gtU indent prevIndent then
    (⟨emit (TokenTag.lang .Indent) l1, indent :: indents1⟩, some StateTag.expression)
  else
    (⟨l1, indent :: indents1⟩, some StateTag.expression)

/-- Which `case` of the `switch (char)` in `lexExpression` fires for a given
code point (the `default` arm distinguishes letters, digits, and anything
else).  Factoring the selection out of the action keeps case analysis over
the switch tractable; `exprDispatch` below performs the selected action. -/
inductive ExprCase
  | eqAssign | plus | minus | asterisk | slash | bang
  | ltc | gtc | lparen | rparen | comma | colon
  | newline | eofCase | identStart | numStart | illegalChar
  deriving DecidableEq

def exprCase (c : Nat) : ExprCase :=
  if c = 61 then .eqAssign
  else if c = 43 then .plus
  else if c = 45 then .minus
  else if c = 42 then .asterisk
  else if c = 47 then .slash
  else if c = 33 then .bang
  else if c = 60 then .ltc
  else if c = 62 then .gtc
  else if c = 40 then .lparen
  else if c = 41 then .rparen
  else if c = 44 then .comma
  else if c = 58 then .colon
  else if c = 10 ∨ c = 13 then .newline
  else if c = eofCp then .eofCase
  else if c ∈ alphaCps then .identStart
  else if c ∈ digitCps then .numStart
  else .illegalChar

/-- The `switch (char)` body of `lexExpression`, applied to the code point
`c` returned by `nextChar` and the scanner state `l1` right after it. -/
def exprDispatch (c : Nat) (l1 : LexSt) (ind : List Nat) : NSt × Option StateTag :=
  match exprCase c with
  | .eqAssign =>
    if (peek l1).1 = 61 then
      (⟨emit (TokenTag.lang .EQ) (nextChar (peek l1).2).2, ind⟩, some StateTag.expression)
    else
      (⟨emit (TokenTag.lang .Assign) (peek l1).2, ind⟩, some StateTag.expression)
  | .plus => (⟨emit (TokenTag.lang .Plus) l1, ind⟩, some StateTag.expression)
  | .minus => (⟨emit (TokenTag.lang .Minus) l1, ind⟩, some StateTag.expression)
  | .asterisk => (⟨emit (TokenTag.lang .Asterisk) l1, ind⟩, some StateTag.expression)
  | .slash => (⟨emit (TokenTag.lang .Slash) l1, ind⟩, some StateTag.expression)
  | .bang =>
    if (peek l1).1 = 61 then
      (⟨emit (TokenTag.lang .NEQ) (nextChar (peek l1).2).2, ind⟩, some StateTag.expression)
    else
      (⟨errorf (strUnits "expected " ++ [39, 61, 39] ++ strUnits ", found " ++
          [39] ++ cpUnits c ++ [39]) (peek l1).2, ind⟩, none)
  | .ltc => (⟨emit (TokenTag.lang .LT) l1, ind⟩, some StateTag.expression)
  | .gtc => (⟨emit (TokenTag.lang .GT) l1, ind⟩, some StateTag.expression)
  | .lparen => (⟨emit (TokenTag.lang .LParen) l1, ind⟩, some StateTag.expression)
  | .rparen => (⟨emit (TokenTag.lang .RParen) l1, ind⟩, some StateTag.expression)
  | .comma => (⟨emit (TokenTag.lang .Comma) l1, ind⟩, some StateTag.expression)
  | .colon => (⟨emit (TokenTag.lang .Colon) l1, ind⟩, some StateTag.expression)
  | .newline => (⟨emit (TokenTag.lang .Newline) l1, ind⟩, some StateTag.indentation)
  | .eofCase => (⟨emit TokenTag.EOF l1, ind⟩, none)
  | .identStart => (⟨l1, ind⟩, some StateTag.identifier)
  | .numStart => (⟨l1, ind⟩, some StateTag.number)
  | .illegalChar =>
    (⟨errorf (strUnits "illegal character: " ++ [39] ++ cpUnits c ++ [39]) l1, ind⟩, none)

/-- `lexExpression`: skip spaces (`eatWhiteSpace`), take the next code point,
then dispatch on it exactly as the source's `switch`. -/
def lexExpression (n : NSt) : NSt × Option StateTag :=
  exprDispatch (nextChar (ignore (acceptRun [32] n.lex))).1
    (nextChar (ignore (acceptRun [32] n.lex))).2 n.indents

/-- The keyword table (own properties of the object literal). -/
def keywords : List (List Nat × TokenType) :=
  [(strUnits "def", .Def), (strUnits "lambda", .Lambda), (strUnits "let", .Let),
   (strUnits "True", .True), (strUnits "False", .False), (strUnits "if", .If),
   (strUnits "else", .Else), (strUnits "not", .Not), (strUnits "return", .Return)]

/-- Property names every object literal inherits from `Object.prototype` in
Node: the bare index lookup `keywords[name]` finds these (truthy functions,
or `Object.prototype` itself for `__proto__`) when `name` is not an own key. -/
def objectPrototypeProps : List (List Nat) :=
  [strUnits "constructor", strUnits "hasOwnProperty", strUnits "isPrototypeOf",
   strUnits "propertyIsEnumerable", strUnits "toLocaleString", strUnits "toString",
   strUnits "valueOf", strUnits "__proto__", strUnits "__defineGetter__",
   strUnits "__defineSetter__", strUnits "__lookupGetter__", strUnits "__lookupSetter__"]

/-- `this.keywords[name] || TokenType.Identifier`: own property first, then
the prototype chain (truthy, hence kept by `||`), else the falsy `undefined`
falls back to `TokenType.Identifier` (itself the falsy number 0, but that
value is only ever produced by the fallback). -/
def keywordLookup (name : List Nat) : TokenTag :=
  match keywords.find? (fun kv => kv.1 = name) with
  | some kv => TokenTag.lang kv.2
  | none =>
    if name ∈ objectPrototypeProps then TokenTag.jsInherited name
    else TokenTag.lang .Identifier

/-- `lexIdentifier`: maximal munch, then keyword-table lookup. -/
def lexIdentifier (n : NSt) : NSt × Option StateTag :=
  let l0 := acceptRun alphanumericCps (accept alphaCps n.lex).2
  (⟨emit (keywordLookup (pending l0)) l0, n.indents⟩, some StateTag.expression)

/-- `lexNumber`: maximal digit run; a letter immediately after is an error. -/
def lexNumber (n : NSt) : NSt × Option StateTag :=
  let l0 := acceptRun digitCps n.lex
  if (peek l0).1 ∈ alphaCps then
    let l1 := (nextChar (peek l0).2).2
    (⟨errorf (strUnits "bad number syntax: " ++ [39] ++ pending l1 ++ [39]) l1,
      n.indents⟩, none)
  else
    (⟨emit (TokenTag.lang .Int) (peek l0).2, n.indents⟩, some StateTag.expression)

/-- One invocation of the current state function. -/
def step : StateTag → NSt → NSt × Option StateTag
  | .indentation, n => lexIndentation n
  | .expression, n => lexExpression n
  | .identifier, n => lexIdentifier n
  | .number, n => lexNumber n

/-- Drive the state machine until the terminal state (or out of fuel),
accumulating every emitted token in the queue. -/
def runAux : Nat → Option StateTag → NSt → NSt × Option StateTag
  | 0, st, n => (n, st)
  | _ + 1, none, n => (n, none)
  | fuel + 1, some t, n =>
    runAux fuel (step t n).2 (step t n).1

/-- Initial scanner state (`newLexer`). -/
def initLexSt (input : List Nat) : LexSt :=
  ⟨input, 0, 0, 0, [], []⟩

/-- Initial `NadderLexer` state: indentation stack `[0]`, start state
`lexIndentation`. -/
def initNSt (input : List Nat) : NSt :=
  ⟨initLexSt input, [0]⟩

/-- Fuel that provably drives any input to the terminal state. -/
def runFuel (input : List Nat) : Nat := 2 * input.length + 2

/-- The whole run of the Nadder lexer on `input`. -/
def tokenizeRun (input : List Nat) : NSt × Option StateTag :=
  runAux (runFuel input) (some StateTag.indentation) (initNSt input)

/-- The full token stream the lexer produces for `input`. -/
def tokenize (input : List Nat) : List Token :=
  (tokenizeRun input).1.lex.tokens

/-- The journal of `input`'s run: every emitted token value and every span
discarded by `ignore`, in order of occurrence. -/
def journalOf (input : List Nat) : List (List Nat) :=
  (tokenizeRun input).1.lex.journal

/-- `ScanOnly s s'` : `s'` arises from `s` by cursor motion and `ignore`s
only — input and token queue unchanged, `pos` monotone, and the journal
invariant (journal concatenation = consumed prefix) is preserved. -/
def ScanOnly (s s' : LexSt) : Prop :=
  s'.input = s.input ∧ s'.tokens = s.tokens ∧ s.pos ≤ s'.pos ∧
  ((s.journal.flatten = s.input.take s.start ∧ s.start ≤ s.pos) →
   (s'.journal.flatten = s'.input.take s'.start ∧ s'.start ≤ s'.pos))

/-- The two universal sentinels that terminate a stream. -/
def isTerminalTag : TokenTag → Bool
  | TokenTag.EOF => true
  | TokenTag.Illegal => true
  | _ => false

/-- Everything the stream-level inductions need to know about one state
invocation: `r` is the state function's result on `n`, `new` the tokens it
pushed.  Fields: queue is append-only; input untouched; the cursor is
monotone; a non-terminal transition pushes no terminal token; a terminal
transition pushes exactly one terminal token, last, and if that token is EOF
(on an input free of the in-band 0xFFFF sentinel) the whole input has been
consumed; Dedent tokens hold only spaces; the journal invariant is
preserved. -/
structure StepSpec (n : NSt) (r : NSt × Option StateTag) (new : List Token) : Prop where
  tokens_eq : r.1.lex.tokens = n.lex.tokens ++ new
  input_eq : r.1.lex.input = n.lex.input
  pos_le : n.lex.pos ≤ r.1.lex.pos
  ok_of_some : r.2 ≠ none → ∀ tok ∈ new, isTerminalTag tok.type = false
  term_of_none : r.2 = none → ∃ pre t, new = pre ++ [t] ∧
    (∀ tok ∈ pre, isTerminalTag tok.type = false) ∧ isTerminalTag t.type = true ∧
    (t.type = TokenTag.EOF → 65535 ∉ n.lex.input → n.lex.input.length ≤ r.1.lex.start)
  dedent_space : ∀ tok ∈ new, tok.type = TokenTag.lang TokenType.Dedent →
    ∀ u ∈ tok.value, u = 32
  inv9 : n.lex.journal.flatten = n.lex.input.take n.lex.start → n.lex.start ≤ n.lex.pos →
    r.1.lex.journal.flatten = r.1.lex.input.take r.1.lex.start ∧
    r.1.lex.start ≤ r.1.lex.pos

/-- State rank for the termination measure: the expression state always
consumes input or stops; the other states may consume nothing but always
fall through to the expression state (or stop). -/
def rank : StateTag → Nat
  | StateTag.expression => 0
  | _ => 1

/-- Termination measure of a machine configuration. -/
def meas : Option StateTag → NSt → Nat
  | none, _ => 0
  | some t, n => 2 * (n.lex.input.length - n.lex.pos) + rank t + 1

/-- Number of terminal (EOF or Illegal) tokens in a stream. -/
def terminalCount (ts : List Token) : Nat :=
  (ts.filter (fun tok => isTerminalTag tok.type)).length

/-- Number of tokens carrying a given tag. -/
def countTag (ts : List Token) (tag : TokenTag) : Nat :=
  (ts.filter (fun tok => tok.type == tag)).length

/-- Whether the last token of a stream carries the given tag. -/
def lastTagIs (ts : List Token) (tag : TokenTag) : Bool :=
  match ts.getLast? with
  | some tok => tok.type == tag
  | none => false

/-- `nextToken()`: shift the queue head if the queue is non-empty, otherwise
invoke the current state; with the terminal state and an empty queue,
`throw "Bad lexer state!"` (modelled as `Except.error`).  The driver loop is
fuelled; `none` stands for running out of fuel, which enough fuel rules out. -/
def nextTokenF : Nat → Option StateTag → NSt →
    Option (Except (List Nat) (Token × Option StateTag × NSt))
  | 0, _, _ => none
  | fuel + 1, st, n =>
    match n.lex.tokens with
    | tok :: rest => some (Except.ok (tok, st, ⟨{ n.lex with tokens := rest }, n.indents⟩))
    | [] =>
      match st with
      | some t => nextTokenF fuel (step t n).2 (step t n).1
      | none => some (Except.error (strUnits "Bad lexer state!"))

/-- The iterator protocol's `next()`: wraps `nextToken` and reports
`done: tok.type === "EOF"`. -/
def nadderNext (fuel : Nat) (st : Option StateTag) (n : NSt) :
    Option (Except (List Nat) ((Token × Bool) × Option StateTag × NSt)) :=
  match nextTokenF fuel st n with
  | some (Except.ok (tok, st2, n2)) =>
    some (Except.ok ((tok, tok.type == TokenTag.EOF), st2, n2))
  | some (Except.error e) => some (Except.error e)
  | none => none

/-- Pull two iterator results from a fresh Nadder lexer on `input` — what a
consumer such as `Array.from` does right after receiving a token whose
`done` flag is false. -/
def pullTwice (input : List Nat) :
    Option (Except (List Nat) (Token × Bool)) ×
    Option (Except (List Nat) (Token × Bool)) :=
  match nadderNext (runFuel input) (some StateTag.indentation) (initNSt input) with
  | some (Except.ok (tb, st2, n2)) =>
    (some (Except.ok tb),
     match nadderNext (runFuel input) st2 n2 with
     | some (Except.ok (tb2, _, _)) => some (Except.ok tb2)
     | some (Except.error e) => some (Except.error e)
     | none => none)
  | some (Except.error e) => (some (Except.error e), none)
  | none => (none, none)

/-! ### Component lemmas for the scanner primitives -/

@[simp] theorem emit_input (t : TokenTag) (s : LexSt) : (emit t s).input = s.input := rfl

@[simp] theorem emit_pos (t : TokenTag) (s : LexSt) : (emit t s).pos = s.pos := rfl

@[simp] theorem emit_start (t : TokenTag) (s : LexSt) : (emit t s).start = s.pos := rfl

@[simp] theorem emit_tokens (t : TokenTag) (s : LexSt) :
    (emit t s).tokens = s.tokens ++ [⟨t, pending s⟩] := rfl

@[simp] theorem emit_journal (t : TokenTag) (s : LexSt) :
    (emit t s).journal = s.journal ++ [pending s] := rfl

@[simp] theorem ignore_input (s : LexSt) : (ignore s).input = s.input := rfl

@[simp] theorem ignore_pos (s : LexSt) : (ignore s).pos = s.pos := rfl

@[simp] theorem ignore_start (s : LexSt) : (ignore s).start = s.pos := rfl

@[simp] theorem ignore_tokens (s : LexSt) : (ignore s).tokens = s.tokens := rfl

@[simp] theorem ignore_journal (s : LexSt) : (ignore s).journal = s.journal ++ [pending s] := rfl

@[simp] theorem errorf_input (m : List Nat) (s : LexSt) : (errorf m s).input = s.input := rfl

@[simp] theorem errorf_pos (m : List Nat) (s : LexSt) : (errorf m s).pos = s.pos := rfl

@[simp] theorem errorf_start (m : List Nat) (s : LexSt) : (errorf m s).start = s.start := rfl

@[simp] theorem errorf_tokens (m : List Nat) (s : LexSt) :
    (errorf m s).tokens = s.tokens ++ [⟨TokenTag.Illegal, m⟩] := rfl

@[simp] theorem errorf_journal (m : List Nat) (s : LexSt) : (errorf m s).journal = s.journal := rfl

theorem cpWidth_pos (cp : Nat) : 0 < cpWidth cp := by
  unfold cpWidth; split <;> omega

@[simp] theorem nextChar_input (s : LexSt) : (nextChar s).2.input = s.input := by
  unfold nextChar; split <;> rfl

@[simp] theorem nextChar_start (s : LexSt) : (nextChar s).2.start = s.start := by
  unfold nextChar; split <;> rfl

@[simp] theorem nextChar_tokens (s : LexSt) : (nextChar s).2.tokens = s.tokens := by
  unfold nextChar; split <;> rfl

@[simp] theorem nextChar_journal (s : LexSt) : (nextChar s).2.journal = s.journal := by
  unfold nextChar; split <;> rfl

theorem nextChar_pos_le (s : LexSt) : s.pos ≤ (nextChar s).2.pos := by
  unfold nextChar; split
  · exact Nat.le_refl _
  · exact Nat.le_add_right _ _

theorem nextChar_pos_sub (s : LexSt) : (nextChar s).2.pos - (nextChar s).2.width = s.pos := by
  unfold nextChar; split
  · simp
  · simp

theorem nextChar_pos_lt (s : LexSt) (h : s.pos < s.input.length) :
    s.pos < (nextChar s).2.pos := by
  unfold nextChar
  rw [if_neg (by omega)]
  have := cpWidth_pos (codePointAt s.input s.pos)
  simp; omega

theorem nextChar_eof (s : LexSt) (h : s.input.length ≤ s.pos) :
    nextChar s = (eofCp, { s with width := 0 }) := by
  unfold nextChar; rw [if_pos h]

@[simp] theorem peek_pos (s : LexSt) : (peek s).2.pos = s.pos := by
  unfold peek backUp
  simp [nextChar_pos_sub]

@[simp] theorem peek_input (s : LexSt) : (peek s).2.input = s.input := by
  unfold peek backUp; simp

@[simp] theorem peek_start (s : LexSt) : (peek s).2.start = s.start := by
  unfold peek backUp; simp

@[simp] theorem peek_tokens (s : LexSt) : (peek s).2.tokens = s.tokens := by
  unfold peek backUp; simp

@[simp] theorem peek_journal (s : LexSt) : (peek s).2.journal = s.journal := by
  unfold peek backUp; simp

@[simp] theorem accept_input (v : List Nat) (s : LexSt) : (accept v s).2.input = s.input := by
  unfold accept backUp; split <;> simp

@[simp] theorem accept_start (v : List Nat) (s : LexSt) : (accept v s).2.start = s.start := by
  unfold accept backUp; split <;> simp

@[simp] theorem accept_tokens (v : List Nat) (s : LexSt) : (accept v s).2.tokens = s.tokens := by
  unfold accept backUp; split <;> simp

@[simp] theorem accept_journal (v : List Nat) (s : LexSt) :
    (accept v s).2.journal = s.journal := by
  unfold accept backUp; split <;> simp

theorem accept_pos_le (v : List Nat) (s : LexSt) : s.pos ≤ (accept v s).2.pos := by
  unfold accept backUp
  split
  · exact nextChar_pos_le s
  · simp [nextChar_pos_sub]

theorem acceptRunGo_input (v : List Nat) (fuel : Nat) (s : LexSt) :
    (acceptRunGo v fuel s).input = s.input := by
  induction fuel generalizing s with
  | zero => rfl
  | succ fuel ih =>
    unfold acceptRunGo
    split
    · rw [ih]; simp
    · simp

theorem acceptRunGo_start (v : List Nat) (fuel : Nat) (s : LexSt) :
    (acceptRunGo v fuel s).start = s.start := by
  induction fuel generalizing s with
  | zero => rfl
  | succ fuel ih =>
    unfold acceptRunGo
    split
    · rw [ih]; simp
    · simp

theorem acceptRunGo_tokens (v : List Nat) (fuel : Nat) (s : LexSt) :
    (acceptRunGo v fuel s).tokens = s.tokens := by
  induction fuel generalizing s with
  | zero => rfl
  | succ fuel ih =>
    unfold acceptRunGo
    split
    · rw [ih]; simp
    · simp

theorem acceptRunGo_journal (v : List Nat) (fuel : Nat) (s : LexSt) :
    (acceptRunGo v fuel s).journal = s.journal := by
  induction fuel generalizing s with
  | zero => rfl
  | succ fuel ih =>
    unfold acceptRunGo
    split
    · rw [ih]; simp
    · simp

theorem acceptRunGo_pos_le (v : List Nat) (fuel : Nat) (s : LexSt) :
    s.pos ≤ (acceptRunGo v fuel s).pos := by
  induction fuel generalizing s with
  | zero => exact Nat.le_refl _
  | succ fuel ih =>
    unfold acceptRunGo
    split
    · exact Nat.le_trans (accept_pos_le v s) (ih _)
    · exact accept_pos_le v s

@[simp] theorem acceptRun_input (v : List Nat) (s : LexSt) :
    (acceptRun v s).input = s.input := acceptRunGo_input ..

@[simp] theorem acceptRun_start (v : List Nat) (s : LexSt) :
    (acceptRun v s).start = s.start := acceptRunGo_start ..

@[simp] theorem acceptRun_tokens (v : List Nat) (s : LexSt) :
    (acceptRun v s).tokens = s.tokens := acceptRunGo_tokens ..

@[simp] theorem acceptRun_journal (v : List Nat) (s : LexSt) :
    (acceptRun v s).journal = s.journal := acceptRunGo_journal ..

theorem acceptRun_pos_le (v : List Nat) (s : LexSt) : s.pos ≤ (acceptRun v s).pos :=
  acceptRunGo_pos_le ..

/-! ### Code-point facts -/

/-- `codePointAt` at an occupied position returns either the unit there or a
decoded surrogate pair (always ≥ 0x10000). -/
theorem codePointAt_cases (input : List Nat) (p u : Nat) (hg : input.get? p = some u) :
    codePointAt input p = u ∨ 65536 ≤ codePointAt input p := by
  unfold codePointAt
  rw [hg]
  dsimp only
  by_cases hhi : isHighSurrogate u = true
  · rw [if_pos hhi]
    rcases hg2 : input.get? (p + 1) with _ | u2
    · left; rfl
    · dsimp only
      by_cases hlo : isLowSurrogate u2 = true
      · rw [if_pos hlo]; right; omega
      · rw [if_neg hlo]; left; rfl
  · rw [if_neg hhi]; left; rfl

/-- When `codePointAt` yields a value below 0x10000, it is the code unit at
`p` itself (decoded surrogate pairs are always ≥ 0x10000). -/
theorem codePointAt_unit (input : List Nat) (p : Nat) (hp : p < input.length)
    (h : codePointAt input p < 65536) : input.get? p = some (codePointAt input p) := by
  rcases hg : input.get? p with _ | u
  · rw [List.get?_eq_none] at hg
    omega
  · rcases codePointAt_cases input p u hg with he | he
    · rw [he]
    · omega

/-- A successful `accept` over an alphabet of BMP non-surrogate code points
consumes exactly the one unit at `pos`, which is a member of the alphabet. -/
theorem accept_true (v : List Nat) (hv : ∀ u ∈ v, u < 55296) (s : LexSt)
    (h : (accept v s).1 = true) :
    s.pos < s.input.length ∧
    s.input.get? s.pos = some (codePointAt s.input s.pos) ∧
    codePointAt s.input s.pos ∈ v ∧
    (accept v s).2 = { s with width := 1, pos := s.pos + 1 } := by
  unfold accept at h ⊢
  split at h
  · rename_i hmem
    have hlt : s.pos < s.input.length := by
      by_contra hge
      rw [nextChar_eof s (by omega)] at hmem
      have := hv _ hmem
      unfold eofCp at this
      omega
    have hcp : (nextChar s).1 = codePointAt s.input s.pos := by
      unfold nextChar
      rw [if_neg (by omega)]
    rw [hcp] at hmem
    have hsmall : codePointAt s.input s.pos < 65536 := by
      have := hv _ hmem
      omega
    have hw : cpWidth (codePointAt s.input s.pos) = 1 := by
      unfold cpWidth
      rw [if_neg (by omega)]
    refine ⟨hlt, codePointAt_unit _ _ hlt hsmall, hmem, ?_⟩
    rw [if_pos (by rw [hcp]; exact hmem)]
    unfold nextChar
    rw [if_neg (by omega), hw]
  · simp at h

/-- A failed `accept` restores `pos` (only `width` may change). -/
theorem accept_false_pos (v : List Nat) (s : LexSt) (h : (accept v s).1 = false) :
    (accept v s).2.pos = s.pos := by
  unfold accept at h ⊢
  split at h
  · simp at h
  · rename_i hmem
    rw [if_neg hmem]
    show (backUp (nextChar s).2).pos = s.pos
    unfold backUp
    exact nextChar_pos_sub s

/-- `nextChar` can only return the eof sentinel at the true end of input,
unless the input itself contains the unit 0xFFFF. -/
theorem nextChar_eofCp_pos (s : LexSt) (h : (nextChar s).1 = eofCp)
    (hmem : 65535 ∉ s.input) : s.input.length ≤ (nextChar s).2.pos ∧
      s.input.length ≤ s.pos := by
  by_cases hge : s.input.length ≤ s.pos
  · rw [nextChar_eof s hge]
    exact ⟨hge, hge⟩
  · exfalso
    have hlt : s.pos < s.input.length := by omega
    have hcp : (nextChar s).1 = codePointAt s.input s.pos := by
      unfold nextChar
      rw [if_neg (by omega)]
    rw [hcp] at h
    unfold eofCp at h
    have := codePointAt_unit s.input s.pos hlt (by omega)
    rw [h] at this
    exact hmem (List.get?_mem this)

/-- `nextChar` returning anything else means it consumed a unit at a valid
position. -/
theorem nextChar_ne_eof (s : LexSt) (h : (nextChar s).1 ≠ eofCp) :
    s.pos < s.input.length ∧ s.pos < (nextChar s).2.pos := by
  by_cases hge : s.input.length ≤ s.pos
  · exact absurd (by rw [nextChar_eof s hge]) h
  · exact ⟨by omega, nextChar_pos_lt s (by omega)⟩

/-! ### The scan-only relation: effect of cursor primitives on the state -/

theorem ScanOnly.refl (s : LexSt) : ScanOnly s s :=
  ⟨Eq.refl _, Eq.refl _, Nat.le_refl _, id⟩

theorem ScanOnly.trans {a b c : LexSt} (h1 : ScanOnly a b) (h2 : ScanOnly b c) :
    ScanOnly a c := by
  obtain ⟨i1, t1, p1, j1⟩ := h1
  obtain ⟨i2, t2, p2, j2⟩ := h2
  exact ⟨i2.trans i1, t2.trans t1, p1.trans p2, fun h => by
    have := j2 (j1 h)
    rwa [i2, i1] at this ⊢⟩

/-- The prefix-concatenation lemma: `take a ++ (drop a).take (b - a) = take b`. -/
theorem take_append_take (l : List Nat) (a b : Nat) (hab : a ≤ b) :
    l.take a ++ (l.drop a).take (b - a) = l.take b := by
  rw [← List.take_add]
  congr 1
  omega

theorem scanOnly_ignore (s : LexSt) : ScanOnly s (ignore s) := by
  refine ⟨Eq.refl _, Eq.refl _, Nat.le_refl _, ?_⟩
  rintro ⟨hj, hsp⟩
  constructor
  · simp only [ignore_journal, ignore_input, ignore_start, List.flatten_append,
      List.flatten_cons, List.flatten_nil, List.append_nil]
    rw [hj]
    exact take_append_take _ _ _ hsp
  · simp

theorem scanOnly_nextChar (s : LexSt) : ScanOnly s (nextChar s).2 := by
  refine ⟨nextChar_input s, nextChar_tokens s, nextChar_pos_le s, ?_⟩
  rintro ⟨hj, hsp⟩
  refine ⟨by rw [nextChar_journal, nextChar_input, nextChar_start]; exact hj, ?_⟩
  rw [nextChar_start]
  exact hsp.trans (nextChar_pos_le s)

theorem scanOnly_peek (s : LexSt) : ScanOnly s (peek s).2 := by
  refine ⟨peek_input s, peek_tokens s, by rw [peek_pos], ?_⟩
  rintro ⟨hj, hsp⟩
  rw [peek_journal, peek_input, peek_start, peek_pos]
  exact ⟨hj, hsp⟩

theorem scanOnly_accept (v : List Nat) (s : LexSt) : ScanOnly s (accept v s).2 := by
  refine ⟨accept_input v s, accept_tokens v s, accept_pos_le v s, ?_⟩
  rintro ⟨hj, hsp⟩
  rw [accept_journal, accept_input, accept_start]
  exact ⟨hj, hsp.trans (accept_pos_le v s)⟩

theorem scanOnly_acceptRunGo (v : List Nat) (fuel : Nat) (s : LexSt) :
    ScanOnly s (acceptRunGo v fuel s) := by
  induction fuel generalizing s with
  | zero => exact ScanOnly.refl s
  | succ fuel ih =>
    unfold acceptRunGo
    split
    · exact (scanOnly_accept v s).trans (ih _)
    · exact scanOnly_accept v s

theorem scanOnly_acceptRun (v : List Nat) (s : LexSt) : ScanOnly s (acceptRun v s) :=
  scanOnly_acceptRunGo ..

/-! ### Pending-span lemmas -/

theorem pending_of_start_eq (s : LexSt) (h : s.start = s.pos) : pending s = [] := by
  simp [pending, h]

theorem pending_emit (t : TokenTag) (s : LexSt) : pending (emit t s) = [] := by
  simp [pending, emit]

theorem pending_ignore (s : LexSt) : pending (ignore s) = [] := by
  simp [pending, ignore]

/-- Extending the pending span by the unit at `pos`. -/
theorem pending_succ (s s' : LexSt) (cp : Nat) (hsp : s.start ≤ s.pos)
    (hg : s.input.get? s.pos = some cp)
    (hi : s'.input = s.input) (hs : s'.start = s.start) (hp : s'.pos = s.pos + 1) :
    pending s' = pending s ++ [cp] := by
  unfold pending
  rw [hi, hs, hp]
  have h1 : s.pos + 1 - s.start = (s.pos - s.start) + 1 := by omega
  rw [h1, List.take_succ, List.getElem?_drop]
  have h2 : s.start + (s.pos - s.start) = s.pos := by omega
  rw [List.get?_eq_getElem?] at hg
  rw [h2, hg]
  rfl

/-- Every unit appended to the pending span by `acceptRunGo v` is in `v`
(for an alphabet of BMP non-surrogate code points). -/
theorem acceptRunGo_pending_sub (v : List Nat) (hv : ∀ u ∈ v, u < 55296)
    (fuel : Nat) (s : LexSt) (hsp : s.start ≤ s.pos)
    (h : ∀ u ∈ pending s, u ∈ v) :
    ∀ u ∈ pending (acceptRunGo v fuel s), u ∈ v := by
  induction fuel generalizing s with
  | zero => exact h
  | succ fuel ih =>
    unfold acceptRunGo
    split
    · rename_i hacc
      obtain ⟨hlt, hg, hmem, he⟩ := accept_true v hv s hacc
      have hpend : pending (accept v s).2 = pending s ++ [codePointAt s.input s.pos] := by
        apply pending_succ s _ _ hsp hg
        · rw [he]
        · rw [he]
        · rw [he]
      apply ih
      · rw [he]
        simp
        omega
      · rw [hpend]
        intro u hu
        rcases List.mem_append.mp hu with h1 | h1
        · exact h u h1
        · rw [List.mem_singleton.mp h1]
          exact hmem
    · rename_i hacc
      have hpend : pending (accept v s).2 = pending s := by
        unfold pending
        rw [accept_input, accept_start, accept_false_pos v s (by simpa using hacc)]
      rw [hpend]
      exact h

theorem acceptRun_pending_sub (v : List Nat) (hv : ∀ u ∈ v, u < 55296)
    (s : LexSt) (hsp : s.start ≤ s.pos) (h : ∀ u ∈ pending s, u ∈ v) :
    ∀ u ∈ pending (acceptRun v s), u ∈ v :=
  acceptRunGo_pending_sub v hv _ s hsp h

/-! ### Step specifications -/

/-- Journal invariant through `emit`. -/
theorem emit_journal_inv (t : TokenTag) (l : LexSt)
    (hj : l.journal.flatten = l.input.take l.start) (hsp : l.start ≤ l.pos) :
    (emit t l).journal.flatten = (emit t l).input.take (emit t l).start ∧
    (emit t l).start ≤ (emit t l).pos := by
  refine ⟨?_, by simp⟩
  simp only [emit_journal, emit_input, emit_start, List.flatten_append,
    List.flatten_cons, List.flatten_nil, List.append_nil]
  rw [hj]
  exact take_append_take _ _ _ hsp

/-- A state invocation that emits one non-terminal token after scan-only
cursor motion. -/
theorem stepSpec_emit (n : NSt) (l : LexSt) (ind : List Nat) (tag : TokenTag)
    (st : StateTag) (h : ScanOnly n.lex l) (htag : isTerminalTag tag = false)
    (hded : tag = TokenTag.lang TokenType.Dedent → ∀ u ∈ pending l, u = 32) :
    StepSpec n (⟨emit tag l, ind⟩, some st) [⟨tag, pending l⟩] := by
  obtain ⟨hi, ht, hp, hj⟩ := h
  refine ⟨?_, ?_, ?_, ?_, ?_, ?_, ?_⟩
  · simp [ht]
  · simp [hi]
  · simpa using hp.trans (Nat.le_refl _)
  · intro _ tok hm
    rw [List.mem_singleton.mp hm]
    exact htag
  · intro hc
    exact absurd hc (by simp)
  · intro tok hm hty
    rw [List.mem_singleton.mp hm] at hty ⊢
    exact hded hty
  · intro h1 h2
    obtain ⟨hj1, hj2⟩ := hj ⟨h1, h2⟩
    exact emit_journal_inv tag l hj1 hj2

/-- A state invocation that emits nothing and transitions on. -/
theorem stepSpec_pass (n : NSt) (l : LexSt) (ind : List Nat) (st : StateTag)
    (h : ScanOnly n.lex l) :
    StepSpec n (⟨l, ind⟩, some st) [] := by
  obtain ⟨hi, ht, hp, hj⟩ := h
  refine ⟨by simp [ht], hi, hp, ?_, ?_, ?_, ?_⟩
  · intro _ tok hm
    exact absurd hm (List.not_mem_nil tok)
  · intro hc
    exact absurd hc (by simp)
  · intro tok hm
    exact absurd hm (List.not_mem_nil tok)
  · intro h1 h2
    exact hj ⟨h1, h2⟩

/-- The end-of-input transition: emit one EOF token and stop. -/
theorem stepSpec_eof (n : NSt) (l : LexSt) (ind : List Nat)
    (h : ScanOnly n.lex l)
    (hlen : 65535 ∉ n.lex.input → n.lex.input.length ≤ l.pos) :
    StepSpec n (⟨emit TokenTag.EOF l, ind⟩, none) [⟨TokenTag.EOF, pending l⟩] := by
  obtain ⟨hi, ht, hp, hj⟩ := h
  refine ⟨by simp [ht], by simp [hi], by simpa using hp, ?_, ?_, ?_, ?_⟩
  · intro hc
    exact absurd rfl hc
  · intro _
    refine ⟨[], ⟨TokenTag.EOF, pending l⟩, by simp, by simp, rfl, ?_⟩
    intro _ hmem
    simpa using hlen hmem
  · intro tok hm hty
    rw [List.mem_singleton.mp hm] at hty
    exact absurd hty (by simp)
  · intro h1 h2
    obtain ⟨hj1, hj2⟩ := hj ⟨h1, h2⟩
    exact emit_journal_inv _ l hj1 hj2

/-- The error transition: emit one Illegal token and stop. -/
theorem stepSpec_errorf (n : NSt) (l : LexSt) (ind : List Nat) (m : List Nat)
    (h : ScanOnly n.lex l) :
    StepSpec n (⟨errorf m l, ind⟩, none) [⟨TokenTag.Illegal, m⟩] := by
  obtain ⟨hi, ht, hp, hj⟩ := h
  refine ⟨by simp [ht], by simp [hi], by simpa using hp, ?_, ?_, ?_, ?_⟩
  · intro hc
    exact absurd rfl hc
  · intro _
    refine ⟨[], ⟨TokenTag.Illegal, m⟩, by simp, by simp, rfl, ?_⟩
    intro hty
    exact absurd hty (by simp)
  · intro tok hm hty
    rw [List.mem_singleton.mp hm] at hty
    exact absurd hty (by simp)
  · intro h1 h2
    obtain ⟨hj1, hj2⟩ := hj ⟨h1, h2⟩
    refine ⟨?_, ?_⟩
    · simpa using hj1
    · simpa using hj2

/-! ### Scan-only chains used by the state functions -/

theorem scanOnly_eatWS (s : LexSt) : ScanOnly s (ignore (acceptRun [32] s)) :=
  (scanOnly_acceptRun _ _).trans (scanOnly_ignore _)

theorem scanOnly_exprChar (s : LexSt) :
    ScanOnly s (nextChar (ignore (acceptRun [32] s))).2 :=
  (scanOnly_eatWS s).trans (scanOnly_nextChar _)

theorem scanOnly_exprPeek (s : LexSt) :
    ScanOnly s (peek (nextChar (ignore (acceptRun [32] s))).2).2 :=
  (scanOnly_exprChar s).trans (scanOnly_peek _)

theorem scanOnly_exprTwo (s : LexSt) :
    ScanOnly s (nextChar (peek (nextChar (ignore (acceptRun [32] s))).2).2).2 :=
  (scanOnly_exprPeek s).trans (scanOnly_nextChar _)

/-- In the end-of-input branch of `lexExpression`, the cursor has consumed
the whole input — provided the input does not contain the in-band sentinel
unit 0xFFFF. -/
theorem eof_branch_len (s : LexSt)
    (h : (nextChar (ignore (acceptRun [32] s))).1 = eofCp)
    (hmem : 65535 ∉ s.input) :
    s.input.length ≤ (nextChar (ignore (acceptRun [32] s))).2.pos := by
  have hin : (ignore (acceptRun [32] s)).input = s.input := by simp
  have h2 := nextChar_eofCp_pos (ignore (acceptRun [32] s)) h (by rw [hin]; exact hmem)
  rw [hin] at h2
  exact h2.1

theorem exprCase_eof (c : Nat) (hc : exprCase c = ExprCase.eofCase) : c = eofCp := by
  unfold exprCase at hc
  by_cases h1 : c = 61
  · rw [if_pos h1] at hc
    exact absurd hc (by decide)
  rw [if_neg h1] at hc
  by_cases h2 : c = 43
  · rw [if_pos h2] at hc
    exact absurd hc (by decide)
  rw [if_neg h2] at hc
  by_cases h3 : c = 45
  · rw [if_pos h3] at hc
    exact absurd hc (by decide)
  rw [if_neg h3] at hc
  by_cases h4 : c = 42
  · rw [if_pos h4] at hc
    exact absurd hc (by decide)
  rw [if_neg h4] at hc
  by_cases h5 : c = 47
  · rw [if_pos h5] at hc
    exact absurd hc (by decide)
  rw [if_neg h5] at hc
  by_cases h6 : c = 33
  · rw [if_pos h6] at hc
    exact absurd hc (by decide)
  rw [if_neg h6] at hc
  by_cases h7 : c = 60
  · rw [if_pos h7] at hc
    exact absurd hc (by decide)
  rw [if_neg h7] at hc
  by_cases h8 : c = 62
  · rw [if_pos h8] at hc
    exact absurd hc (by decide)
  rw [if_neg h8] at hc
  by_cases h9 : c = 40
  · rw [if_pos h9] at hc
    exact absurd hc (by decide)
  rw [if_neg h9] at hc
  by_cases h10 : c = 41
  · rw [if_pos h10] at hc
    exact absurd hc (by decide)
  rw [if_neg h10] at hc
  by_cases h11 : c = 44
  · rw [if_pos h11] at hc
    exact absurd hc (by decide)
  rw [if_neg h11] at hc
  by_cases h12 : c = 58
  · rw [if_pos h12] at hc
    exact absurd hc (by decide)
  rw [if_neg h12] at hc
  by_cases h13 : c = 10 ∨ c = 13
  · rw [if_pos h13] at hc
    exact absurd hc (by decide)
  rw [if_neg h13] at hc
  by_cases h14 : c = eofCp
  · exact h14
  rw [if_neg h14] at hc
  by_cases h15 : c ∈ alphaCps
  · rw [if_pos h15] at hc
    exact absurd hc (by decide)
  rw [if_neg h15] at hc
  by_cases h16 : c ∈ digitCps
  · rw [if_pos h16] at hc
    exact absurd hc (by decide)
  rw [if_neg h16] at hc
  exact absurd hc (by decide)

theorem exprDispatch_spec (n : NSt) (c : Nat) (l1 : LexSt) (ind : List Nat)
    (hscan : ScanOnly n.lex l1)
    (heof : c = eofCp → 65535 ∉ n.lex.input → n.lex.input.length ≤ l1.pos) :
    ∃ new, StepSpec n (exprDispatch c l1 ind) new := by
  cases hc : exprCase c <;> simp only [exprDispatch, hc]
  case eqAssign =>
    by_cases hp : (peek l1).1 = 61
    · rw [if_pos hp]
      exact ⟨_, stepSpec_emit _ _ _ _ _
        ((hscan.trans (scanOnly_peek _)).trans (scanOnly_nextChar _)) (by decide)
        (fun hd => absurd hd (by decide))⟩
    · rw [if_neg hp]
      exact ⟨_, stepSpec_emit _ _ _ _ _ (hscan.trans (scanOnly_peek _)) (by decide)
        (fun hd => absurd hd (by decide))⟩
  case bang =>
    by_cases hp : (peek l1).1 = 61
    · rw [if_pos hp]
      exact ⟨_, stepSpec_emit _ _ _ _ _
        ((hscan.trans (scanOnly_peek _)).trans (scanOnly_nextChar _)) (by decide)
        (fun hd => absurd hd (by decide))⟩
    · rw [if_neg hp]
      exact ⟨_, stepSpec_errorf _ _ _ _ (hscan.trans (scanOnly_peek _))⟩
  case eofCase =>
    exact ⟨_, stepSpec_eof _ _ _ hscan (fun hmem => heof (exprCase_eof c hc) hmem)⟩
  all_goals first
    | exact ⟨_, stepSpec_emit _ _ _ _ _ hscan (by decide)
        (fun hd => absurd hd (by decide))⟩
    | exact ⟨_, stepSpec_pass _ _ _ _ hscan⟩
    | exact ⟨_, stepSpec_errorf _ _ _ _ hscan⟩

theorem lexExpression_spec (n : NSt) : ∃ new, StepSpec n (lexExpression n) new := by
  simp only [lexExpression]
  exact exprDispatch_spec n _ _ _ (scanOnly_exprChar n.lex)
    (fun he hmem => eof_branch_len n.lex he hmem)

theorem keywordLookup_not_terminal (name : List Nat) :
    isTerminalTag (keywordLookup name) = false := by
  unfold keywordLookup
  split
  · rfl
  · split <;> rfl

theorem keywordLookup_ne_dedent (name : List Nat) :
    keywordLookup name ≠ TokenTag.lang TokenType.Dedent := by
  unfold keywordLookup
  split
  · rename_i kv hfind
    have hmem := List.mem_of_find?_eq_some hfind
    have hall : ∀ kv2 ∈ keywords, kv2.2 ≠ TokenType.Dedent := by decide
    intro h
    injection h with h2
    exact hall kv hmem h2
  · split
    · intro h
      exact absurd h (by simp)
    · intro h
      injection h with h2
      exact absurd h2 (by decide)

theorem lexIdentifier_spec (n : NSt) : ∃ new, StepSpec n (lexIdentifier n) new := by
  simp only [lexIdentifier]
  exact ⟨_, stepSpec_emit _ _ _ _ _
    ((scanOnly_accept alphaCps n.lex).trans (scanOnly_acceptRun _ _))
    (keywordLookup_not_terminal _)
    (fun hd => absurd hd (keywordLookup_ne_dedent _))⟩

theorem lexNumber_spec (n : NSt) : ∃ new, StepSpec n (lexNumber n) new := by
  simp only [lexNumber]
  split_ifs with h1
  · exact ⟨_, stepSpec_errorf _ _ _ _
      (((scanOnly_acceptRun digitCps n.lex).trans (scanOnly_peek _)).trans
        (scanOnly_nextChar _))⟩
  · exact ⟨_, stepSpec_emit _ _ _ _ _
      ((scanOnly_acceptRun digitCps n.lex).trans (scanOnly_peek _))
      (by decide) (fun hd => absurd hd (by decide))⟩

/-! ### The dedent loop -/

theorem dedentLoop_spec (indent iters : Nat) (prev : Option Nat) (indents : List Nat)
    (lex : LexSt) :
    ∃ new,
      (dedentLoop indent iters prev indents lex).1.tokens = lex.tokens ++ new ∧
      (dedentLoop indent iters prev indents lex).1.input = lex.input ∧
      (dedentLoop indent iters prev indents lex).1.pos = lex.pos ∧
      ((dedentLoop indent iters prev indents lex).2.2 = false →
        ∀ tok ∈ new, tok.type = TokenTag.lang TokenType.Dedent) ∧
      ((dedentLoop indent iters prev indents lex).2.2 = true →
        ∃ pre, new = pre ++ [⟨TokenTag.Illegal, strUnits "inconsistent dedent"⟩] ∧
          ∀ tok ∈ pre, tok.type = TokenTag.lang TokenType.Dedent) ∧
      (∀ tok ∈ new, tok.type = TokenTag.lang TokenType.Dedent →
        tok.value = pending lex ∨ tok.value = []) ∧
      (lex.journal.flatten = lex.input.take lex.start → lex.start ≤ lex.pos →
        (dedentLoop indent iters prev indents lex).1.journal.flatten =
          (dedentLoop indent iters prev indents lex).1.input.take
            (dedentLoop indent iters prev indents lex).1.start ∧
        (dedentLoop indent iters prev indents lex).1.start ≤
          (dedentLoop indent iters prev indents lex).1.pos) := by
  induction iters generalizing prev indents lex with
  | zero =>
    refine ⟨[], by simp [dedentLoop], rfl, rfl, ?_, ?_, ?_, fun h1 h2 => ⟨h1, h2⟩⟩
    · intro _ tok hm
      exact absurd hm (List.not_mem_nil tok)
    · intro habs
      simp [dedentLoop] at habs
    · intro tok hm
      exact absurd hm (List.not_mem_nil tok)
  | succ k ih =>
    by_cases hlt : ltU indent prev = true
    · have heq : dedentLoop indent (k + 1) prev indents lex =
          dedentLoop indent k (popJS indents).1 (popJS indents).2
            (emit (TokenTag.lang TokenType.Dedent) lex) := by
        simp only [dedentLoop]
        rw [if_pos hlt]
      obtain ⟨new2, ht, hi, hp, hok, herr, hval, hj⟩ :=
        ih (popJS indents).1 (popJS indents).2 (emit (TokenTag.lang TokenType.Dedent) lex)
      rw [heq]
      refine ⟨⟨TokenTag.lang TokenType.Dedent, pending lex⟩ :: new2, ?_, ?_, ?_, ?_, ?_, ?_, ?_⟩
      · rw [ht]
        simp
      · rw [hi]
        simp
      · rw [hp]
        simp
      · intro hf tok hm
        rcases List.mem_cons.mp hm with h | h
        · rw [h]
        · exact hok hf tok h
      · intro hf
        obtain ⟨pre, hpe, hpd⟩ := herr hf
        refine ⟨⟨TokenTag.lang TokenType.Dedent, pending lex⟩ :: pre, ?_, ?_⟩
        · rw [hpe]
          rfl
        · intro tok hm
          rcases List.mem_cons.mp hm with h | h
          · rw [h]
          · exact hpd tok h
      · intro tok hm hty
        rcases List.mem_cons.mp hm with h | h
        · rw [h]
          exact Or.inl rfl
        · rcases hval tok h hty with hv | hv
          · rw [pending_emit] at hv
            exact Or.inr hv
          · exact Or.inr hv
      · intro h1 h2
        obtain ⟨he1, he2⟩ := emit_journal_inv (TokenTag.lang TokenType.Dedent) lex h1 h2
        exact hj he1 he2
    · by_cases heq2 : eqU indent prev = true
      · have heqd : dedentLoop indent (k + 1) prev indents lex = (lex, indents, false) := by
          simp only [dedentLoop]
          rw [if_neg hlt, if_pos heq2]
        rw [heqd]
        refine ⟨[], by simp, rfl, rfl, ?_, ?_, ?_, fun h1 h2 => ⟨h1, h2⟩⟩
        · intro _ tok hm
          exact absurd hm (List.not_mem_nil tok)
        · intro habs
          simp at habs
        · intro tok hm
          exact absurd hm (List.not_mem_nil tok)
      · have heqd : dedentLoop indent (k + 1) prev indents lex =
            (errorf (strUnits "inconsistent dedent") lex, indents, true) := by
          simp only [dedentLoop]
          rw [if_neg hlt, if_neg heq2]
        rw [heqd]
        refine ⟨[⟨TokenTag.Illegal, strUnits "inconsistent dedent"⟩], by simp, rfl, rfl,
          ?_, ?_, ?_, ?_⟩
        · intro habs
          simp at habs
        · intro _
          exact ⟨[], by simp, fun tok hm => absurd hm (List.not_mem_nil tok)⟩
        · intro tok hm hty
          rw [List.mem_singleton.mp hm] at hty
          exact absurd hty (by simp)
        · intro h1 h2
          exact ⟨by simpa using h1, by simpa using h2⟩

theorem stepSpec_dedent_ok (n : NSt) (l : LexSt) (ind : List Nat)
    (indent iters : Nat) (prev : Option Nat) (indents : List Nat)
    (hscan : ScanOnly n.lex l) (hpend : ∀ u ∈ pending l, u = 32)
    (herr : (dedentLoop indent iters prev indents l).2.2 = false) :
    ∃ new, StepSpec n (⟨(dedentLoop indent iters prev indents l).1, ind⟩,
      some StateTag.expression) new := by
  obtain ⟨dnew, ht, hi, hp, hok, _, hval, hj⟩ := dedentLoop_spec indent iters prev indents l
  obtain ⟨hsi, hst, hsp, hsj⟩ := hscan
  refine ⟨dnew, ?_, ?_, ?_, ?_, ?_, ?_, ?_⟩
  · rw [ht, hst]
  · rw [hi, hsi]
  · rw [hp]
    exact hsp
  · intro _ tok hm
    rw [hok herr tok hm]
    rfl
  · intro hc
    exact absurd hc (by simp)
  · intro tok hm hty u hu
    rcases hval tok hm hty with hv | hv
    · rw [hv] at hu
      exact hpend u hu
    · rw [hv] at hu
      exact absurd hu (List.not_mem_nil u)
  · intro h1 h2
    obtain ⟨hj1, hj2⟩ := hsj ⟨h1, h2⟩
    exact hj hj1 hj2

theorem stepSpec_dedent_err (n : NSt) (l : LexSt) (ind : List Nat)
    (indent iters : Nat) (prev : Option Nat) (indents : List Nat)
    (hscan : ScanOnly n.lex l) (hpend : ∀ u ∈ pending l, u = 32)
    (herr : (dedentLoop indent iters prev indents l).2.2 = true) :
    ∃ new, StepSpec n (⟨(dedentLoop indent iters prev indents l).1, ind⟩, none) new := by
  obtain ⟨dnew, ht, hi, hp, _, herr2, hval, hj⟩ := dedentLoop_spec indent iters prev indents l
  obtain ⟨hsi, hst, hsp, hsj⟩ := hscan
  obtain ⟨pre, hpe, hpd⟩ := herr2 herr
  refine ⟨dnew, ?_, ?_, ?_, ?_, ?_, ?_, ?_⟩
  · rw [ht, hst]
  · rw [hi, hsi]
  · rw [hp]
    exact hsp
  · intro hc
    exact absurd rfl hc
  · intro _
    refine ⟨pre, ⟨TokenTag.Illegal, strUnits "inconsistent dedent"⟩, hpe, ?_, rfl, ?_⟩
    · intro tok hm
      rw [hpd tok hm]
      rfl
    · intro hty
      exact absurd hty (by simp)
  · intro tok hm hty u hu
    rcases hval tok hm hty with hv | hv
    · rw [hv] at hu
      exact hpend u hu
    · rw [hv] at hu
      exact absurd hu (List.not_mem_nil u)
  · intro h1 h2
    obtain ⟨hj1, hj2⟩ := hsj ⟨h1, h2⟩
    exact hj hj1 hj2

theorem lexIndentation_spec (n : NSt) : ∃ new, StepSpec n (lexIndentation n) new := by
  have hscan : ScanOnly n.lex (acceptRun [32] (ignore (acceptRun newlineCps n.lex))) :=
    ((scanOnly_acceptRun newlineCps n.lex).trans (scanOnly_ignore _)).trans
      (scanOnly_acceptRun _ _)
  have hpend : ∀ u ∈ pending (acceptRun [32] (ignore (acceptRun newlineCps n.lex))), u = 32 := by
    intro u hu
    have h2 := acceptRun_pending_sub [32] (by decide) (ignore (acceptRun newlineCps n.lex))
      (by simp) (by rw [pending_ignore]; intro u2 hu2; exact absurd hu2 (List.not_mem_nil u2))
      u hu
    simpa using h2
  simp only [lexIndentation]
  split_ifs with h1 h2 h3
  · exact stepSpec_dedent_err _ _ _ _ _ _ _ hscan hpend h2
  · exact stepSpec_dedent_ok _ _ _ _ _ _ _ hscan hpend (by simpa using h2)
  · exact ⟨_, stepSpec_emit _ _ _ _ _ hscan (by decide) (fun hd => absurd hd (by decide))⟩
  · exact ⟨_, stepSpec_pass _ _ _ _ hscan⟩

theorem step_spec (t : StateTag) (n : NSt) : ∃ new, StepSpec n (step t n) new := by
  cases t with
  | indentation => exact lexIndentation_spec n
  | expression => exact lexExpression_spec n
  | identifier => exact lexIdentifier_spec n
  | number => exact lexNumber_spec n

/-! ### Composition and identity of step specifications -/

theorem stepSpec_id (n : NSt) (t : StateTag) : StepSpec n (n, some t) [] := by
  refine ⟨by simp, rfl, Nat.le_refl _, ?_, ?_, ?_, ?_⟩
  · intro _ tok hm
    exact absurd hm (List.not_mem_nil tok)
  · intro hc
    exact absurd hc (by simp)
  · intro tok hm
    exact absurd hm (List.not_mem_nil tok)
  · intro h1 h2
    exact ⟨h1, h2⟩

theorem stepSpec_comp (n m : NSt) (t2 : StateTag) (r : NSt × Option StateTag)
    (new1 new2 : List Token)
    (h1 : StepSpec n (m, some t2) new1) (h2 : StepSpec m r new2) :
    StepSpec n r (new1 ++ new2) := by
  refine ⟨?_, ?_, ?_, ?_, ?_, ?_, ?_⟩
  · rw [h2.tokens_eq, show m.lex.tokens = n.lex.tokens ++ new1 from h1.tokens_eq,
      List.append_assoc]
  · rw [h2.input_eq]
    exact show m.lex.input = n.lex.input from h1.input_eq
  · exact le_trans (show n.lex.pos ≤ m.lex.pos from h1.pos_le) h2.pos_le
  · intro hne tok hm
    rcases List.mem_append.mp hm with h | h
    · exact h1.ok_of_some (by simp) tok h
    · exact h2.ok_of_some hne tok h
  · intro he
    obtain ⟨pre, tk, hpe, hpre, hterm, heof⟩ := h2.term_of_none he
    refine ⟨new1 ++ pre, tk, by rw [hpe, List.append_assoc], ?_, hterm, ?_⟩
    · intro tok hm
      rcases List.mem_append.mp hm with h | h
      · exact h1.ok_of_some (by simp) tok h
      · exact hpre tok h
    · intro hty hmem
      have hmem2 : 65535 ∉ m.lex.input := by
        rw [show m.lex.input = n.lex.input from h1.input_eq]
        exact hmem
      have hle := heof hty hmem2
      rw [← show m.lex.input = n.lex.input from h1.input_eq]
      exact hle
  · intro tok hm
    rcases List.mem_append.mp hm with h | h
    · exact h1.dedent_space tok h
    · exact h2.dedent_space tok h
  · intro ha hb
    have h3 := h1.inv9 ha hb
    exact h2.inv9 h3.1 h3.2

/-! ### Transition targets, progress, and termination -/

theorem lexIndentation_target (n : NSt) :
    (lexIndentation n).2 = none ∨ (lexIndentation n).2 = some StateTag.expression := by
  simp only [lexIndentation]
  split_ifs <;> simp

theorem lexIdentifier_target (n : NSt) : (lexIdentifier n).2 = some StateTag.expression := rfl

theorem lexNumber_target (n : NSt) :
    (lexNumber n).2 = none ∨ (lexNumber n).2 = some StateTag.expression := by
  simp only [lexNumber]
  split_ifs <;> simp

theorem exprDispatch_pos_le (c : Nat) (l1 : LexSt) (ind : List Nat) :
    l1.pos ≤ (exprDispatch c l1 ind).1.lex.pos := by
  cases hc : exprCase c <;> simp only [exprDispatch, hc]
  case eqAssign =>
    by_cases hp : (peek l1).1 = 61
    · rw [if_pos hp]
      simp only [emit_pos]
      exact le_trans (Nat.le_of_eq (peek_pos l1).symm) (nextChar_pos_le _)
    · rw [if_neg hp]
      simp [peek_pos]
  case bang =>
    by_cases hp : (peek l1).1 = 61
    · rw [if_pos hp]
      simp only [emit_pos]
      exact le_trans (Nat.le_of_eq (peek_pos l1).symm) (nextChar_pos_le _)
    · rw [if_neg hp]
      simp [peek_pos]
  all_goals simp

theorem lexExpression_progress (n : NSt) :
    (lexExpression n).2 = none ∨
    (n.lex.pos < (lexExpression n).1.lex.pos ∧ n.lex.pos < n.lex.input.length) := by
  simp only [lexExpression]
  by_cases hc : (nextChar (ignore (acceptRun [32] n.lex))).1 = eofCp
  · left
    rw [hc]
    have he : exprCase eofCp = ExprCase.eofCase := by decide
    simp only [exprDispatch, he]
  · right
    obtain ⟨hlt, hadv⟩ := nextChar_ne_eof _ hc
    have hX := scanOnly_eatWS n.lex
    have hXin : (ignore (acceptRun [32] n.lex)).input = n.lex.input := hX.1
    have hXpos : n.lex.pos ≤ (ignore (acceptRun [32] n.lex)).pos := hX.2.2.1
    constructor
    · have h3 := exprDispatch_pos_le (nextChar (ignore (acceptRun [32] n.lex))).1
        (nextChar (ignore (acceptRun [32] n.lex))).2 n.indents
      omega
    · have hlen : (ignore (acceptRun [32] n.lex)).input.length = n.lex.input.length := by
        rw [hXin]
      omega

theorem step_meas (t : StateTag) (n : NSt) :
    meas (step t n).2 (step t n).1 < meas (some t) n := by
  obtain ⟨new, hspec⟩ := step_spec t n
  have hpos := hspec.pos_le
  cases t with
  | indentation =>
    simp only [step] at hpos ⊢
    have hlen : (lexIndentation n).1.lex.input.length = n.lex.input.length := by
      rw [show (lexIndentation n).1.lex.input = n.lex.input from hspec.input_eq]
    rcases lexIndentation_target n with h | h <;> rw [h] <;> simp only [meas, rank] <;> omega
  | identifier =>
    simp only [step] at hpos ⊢
    have hlen : (lexIdentifier n).1.lex.input.length = n.lex.input.length := by
      rw [show (lexIdentifier n).1.lex.input = n.lex.input from hspec.input_eq]
    rw [lexIdentifier_target n]
    simp only [meas, rank]
    omega
  | number =>
    simp only [step] at hpos ⊢
    have hlen : (lexNumber n).1.lex.input.length = n.lex.input.length := by
      rw [show (lexNumber n).1.lex.input = n.lex.input from hspec.input_eq]
    rcases lexNumber_target n with h | h <;> rw [h] <;> simp only [meas, rank] <;> omega
  | expression =>
    simp only [step] at hpos ⊢
    have hlen : (lexExpression n).1.lex.input.length = n.lex.input.length := by
      rw [show (lexExpression n).1.lex.input = n.lex.input from hspec.input_eq]
    rcases lexExpression_progress n with h | ⟨h1, h2⟩
    · rw [h]
      simp only [meas, rank]
      omega
    · rcases hst : (lexExpression n).2 with _ | t2
      · simp only [meas]
        omega
      · simp only [meas]
        have hr : rank t2 ≤ 1 := by cases t2 <;> simp [rank]
        omega

theorem runAux_term (fuel : Nat) (st : Option StateTag) (n : NSt)
    (h : meas st n ≤ fuel) : (runAux fuel st n).2 = none := by
  induction fuel generalizing st n with
  | zero =>
    cases st with
    | none => rfl
    | some t => simp [meas] at h
  | succ fuel ih =>
    cases st with
    | none => rfl
    | some t =>
      simp only [runAux]
      apply ih
      have := step_meas t n
      omega

/-- Every run reaches the terminal state within the supplied fuel. -/
theorem tokenizeRun_none (input : List Nat) : (tokenizeRun input).2 = none := by
  unfold tokenizeRun
  apply runAux_term
  simp only [meas, rank, runFuel, initNSt, initLexSt]
  omega

theorem runAux_stepSpec (fuel : Nat) (t : StateTag) (n : NSt) :
    ∃ new, StepSpec n (runAux fuel (some t) n) new := by
  induction fuel generalizing t n with
  | zero => exact ⟨[], stepSpec_id n t⟩
  | succ fuel ih =>
    simp only [runAux]
    obtain ⟨new1, h1⟩ := step_spec t n
    rcases hst : (step t n).2 with _ | t2
    · have hrun : runAux fuel none (step t n).1 = ((step t n).1, none) := by
        cases fuel <;> rfl
      rw [hrun]
      have h1e : StepSpec n ((step t n).1, (step t n).2) new1 := h1
      rw [hst] at h1e
      exact ⟨new1, h1e⟩
    · obtain ⟨new2, h2⟩ := ih t2 (step t n).1
      have h1e : StepSpec n ((step t n).1, (step t n).2) new1 := h1
      rw [hst] at h1e
      exact ⟨new1 ++ new2, stepSpec_comp n (step t n).1 t2 _ new1 new2 h1e h2⟩

/-- Master theorem: the whole token stream of any input arises from a chain
of state invocations satisfying `StepSpec`, and the run terminates. -/
theorem tokenize_stepSpec (input : List Nat) :
    ∃ new, tokenize input = new ∧ StepSpec (initNSt input) (tokenizeRun input) new := by
  obtain ⟨new, h⟩ := runAux_stepSpec (runFuel input) StateTag.indentation (initNSt input)
  refine ⟨new, ?_, h⟩
  unfold tokenize tokenizeRun
  rw [show (runAux (runFuel input) (some StateTag.indentation) (initNSt input)).1.lex.tokens =
    (initNSt input).lex.tokens ++ new from h.tokens_eq]
  simp [initNSt, initLexSt]

/-! ### Exact-state evaluation lemmas for the primitives -/

theorem get?_lt (l : List Nat) (p u : Nat) (h : l.get? p = some u) : p < l.length := by
  by_contra hge
  rw [List.get?_eq_none.mpr (by omega)] at h
  cases h

theorem codePointAt_of_unit_small (input : List Nat) (p u : Nat)
    (hg : input.get? p = some u) (hu : u < 55296) : codePointAt input p = u := by
  unfold codePointAt
  rw [hg]
  dsimp only
  rw [if_neg (by simp only [isHighSurrogate, decide_eq_true_eq]; omega)]

theorem nextChar_unit (s : LexSt) (u : Nat)
    (hg : s.input.get? s.pos = some u) (hu : u < 55296) :
    nextChar s = (u, { s with width := 1, pos := s.pos + 1 }) := by
  have hlt : s.pos < s.input.length := get?_lt _ _ _ hg
  have hcp := codePointAt_of_unit_small s.input s.pos u hg hu
  have hw : cpWidth u = 1 := by
    unfold cpWidth
    rw [if_neg (by omega)]
  unfold nextChar
  rw [if_neg (by omega), hcp, hw]

theorem peek_unit (s : LexSt) (u : Nat)
    (hg : s.input.get? s.pos = some u) (hu : u < 55296) :
    peek s = (u, { s with width := 1 }) := by
  unfold peek
  rw [nextChar_unit s u hg hu]
  unfold backUp
  simp

theorem peek_atEnd (s : LexSt) (h : s.input.length ≤ s.pos) :
    peek s = (eofCp, { s with width := 0 }) := by
  unfold peek
  rw [nextChar_eof s h]
  unfold backUp
  simp

theorem accept_false_of_unit (v : List Nat) (s : LexSt) (u : Nat)
    (hg : s.input.get? s.pos = some u) (hu : u < 55296) (hnv : u ∉ v) :
    accept v s = (false, { s with width := 1 }) := by
  unfold accept
  rw [nextChar_unit s u hg hu]
  dsimp only
  rw [if_neg hnv]
  unfold backUp
  simp

theorem accept_true_of_unit (v : List Nat) (s : LexSt) (u : Nat)
    (hg : s.input.get? s.pos = some u) (hu : u < 55296) (hv : u ∈ v) :
    accept v s = (true, { s with width := 1, pos := s.pos + 1 }) := by
  unfold accept
  rw [nextChar_unit s u hg hu]
  dsimp only
  rw [if_pos hv]

theorem acceptRun_stuck_eq (v : List Nat) (s : LexSt) (u : Nat)
    (hg : s.input.get? s.pos = some u) (hu : u < 55296) (hnv : u ∉ v) :
    acceptRun v s = { s with width := 1 } := by
  have hlt : s.pos < s.input.length := get?_lt _ _ _ hg
  unfold acceptRun
  rcases hf : s.input.length + 1 - s.pos with _ | fuel
  · omega
  · unfold acceptRunGo
    rw [accept_false_of_unit v s u hg hu hnv]
    rfl

theorem pending_peek (s : LexSt) : pending (peek s).2 = pending s := by
  unfold pending
  rw [peek_input, peek_start, peek_pos]

theorem pending_single (S : LexSt) (u1 : Nat)
    (hg1 : S.input.get? S.start = some u1) (hpos : S.pos = S.start + 1) :
    pending S = [u1] := by
  unfold pending
  rw [hpos]
  have h1 : S.start + 1 - S.start = 1 := by omega
  rw [h1]
  have hlt1 : S.start < S.input.length := get?_lt _ _ _ hg1
  rw [List.drop_eq_getElem_cons hlt1]
  have he1 : S.input[S.start] = u1 := by
    have h2 := hg1
    rw [List.get?_eq_getElem?, List.getElem?_eq_getElem hlt1] at h2
    exact Option.some_injective _ h2
  rw [he1]
  rfl

theorem pending_pair (S : LexSt) (u1 u2 : Nat)
    (hg1 : S.input.get? S.start = some u1)
    (hg2 : S.input.get? (S.start + 1) = some u2)
    (hpos : S.pos = S.start + 2) :
    pending S = [u1, u2] := by
  unfold pending
  rw [hpos]
  have h1 : S.start + 2 - S.start = 2 := by omega
  rw [h1]
  have hlt1 : S.start < S.input.length := get?_lt _ _ _ hg1
  have hlt2 : S.start + 1 < S.input.length := get?_lt _ _ _ hg2
  rw [List.drop_eq_getElem_cons hlt1, List.drop_eq_getElem_cons hlt2]
  have he1 : S.input[S.start] = u1 := by
    have h2 := hg1
    rw [List.get?_eq_getElem?, List.getElem?_eq_getElem hlt1] at h2
    exact Option.some_injective _ h2
  have he2 : S.input[S.start + 1] = u2 := by
    have h2 := hg2
    rw [List.get?_eq_getElem?, List.getElem?_eq_getElem hlt2] at h2
    exact Option.some_injective _ h2
  rw [he1, he2]
  rfl

theorem runAux_succ (fuel : Nat) (t : StateTag) (n : NSt) :
    runAux (fuel + 1) (some t) n = runAux fuel (step t n).2 (step t n).1 := rfl

theorem runAux_none (fuel : Nat) (n : NSt) : runAux fuel none n = (n, none) := by
  cases fuel <;> rfl

/-! ### Alphabet arithmetic -/

theorem digit_bounds (d : Nat) (h : d ∈ digitCps) : 48 ≤ d ∧ d ≤ 57 := by
  unfold digitCps at h
  simp only [List.mem_map, List.mem_range] at h
  obtain ⟨i, hi, rfl⟩ := h
  omega

theorem alpha_bounds (c : Nat) (h : c ∈ alphaCps) :
    c = 95 ∨ (97 ≤ c ∧ c ≤ 122) ∨ (65 ≤ c ∧ c ≤ 90) := by
  unfold alphaCps at h
  rcases List.mem_cons.mp h with h | h
  · exact Or.inl h
  · rcases List.mem_append.mp h with h | h <;> simp only [List.mem_map, List.mem_range] at h
    · obtain ⟨i, hi, rfl⟩ := h
      right; left; omega
    · obtain ⟨i, hi, rfl⟩ := h
      right; right; omega

theorem alpha_not_digit (c : Nat) (h : c ∈ alphaCps) : c ∉ digitCps := by
  intro h2
  have hb := digit_bounds c h2
  rcases alpha_bounds c h with h3 | h3 | h3 <;> omega

theorem digit_not_alpha (d : Nat) (h : d ∈ digitCps) : d ∉ alphaCps :=
  fun h2 => alpha_not_digit d h2 h

theorem exprCase_digit (d : Nat) (h : d ∈ digitCps) : exprCase d = ExprCase.numStart := by
  have hb := digit_bounds d h
  have h61 : ¬ d = 61 := by omega
  have h43 : ¬ d = 43 := by omega
  have h45 : ¬ d = 45 := by omega
  have h42 : ¬ d = 42 := by omega
  have h47 : ¬ d = 47 := by omega
  have h33 : ¬ d = 33 := by omega
  have h60 : ¬ d = 60 := by omega
  have h62 : ¬ d = 62 := by omega
  have h40 : ¬ d = 40 := by omega
  have h41 : ¬ d = 41 := by omega
  have h44 : ¬ d = 44 := by omega
  have h58 : ¬ d = 58 := by omega
  have hnw : ¬ (d = 10 ∨ d = 13) := by omega
  have hne : ¬ d = eofCp := by unfold eofCp; omega
  unfold exprCase
  rw [if_neg h61, if_neg h43, if_neg h45, if_neg h42, if_neg h47, if_neg h33,
    if_neg h60, if_neg h62, if_neg h40, if_neg h41, if_neg h44, if_neg h58,
    if_neg hnw, if_neg hne, if_neg (digit_not_alpha d h), if_pos h]

/-! ### Tag classification helpers -/

theorem isTerminalTag_cases (tag : TokenTag) (h : isTerminalTag tag = true) :
    tag = TokenTag.EOF ∨ tag = TokenTag.Illegal := by
  cases tag with
  | lang t => simp [isTerminalTag] at h
  | EOF => exact Or.inl rfl
  | Illegal => exact Or.inr rfl
  | jsInherited nm => simp [isTerminalTag] at h

theorem isTerminalTag_false_ne (tag : TokenTag) (h : isTerminalTag tag = false) :
    tag ≠ TokenTag.EOF ∧ tag ≠ TokenTag.Illegal := by
  cases tag <;> simp [isTerminalTag] at h ⊢

/-- Evaluating `lexExpression` at a state whose next unit is a known
non-space BMP code point: `eatWhiteSpace` consumes nothing (but discards the
pending span), `nextChar` consumes the unit, and the switch dispatches on
it. -/
theorem lexExpression_unit (s : NSt) (c : Nat)
    (hg : s.lex.input.get? s.lex.pos = some c) (hc55 : c < 55296) (hc32 : c ≠ 32) :
    lexExpression s = exprDispatch c
      { s.lex with journal := s.lex.journal ++ [pending s.lex],
                   start := s.lex.pos, width := 1, pos := s.lex.pos + 1 } s.indents := by
  unfold lexExpression
  have har : acceptRun [32] s.lex = { s.lex with width := 1 } :=
    acceptRun_stuck_eq _ _ c hg hc55 (by simpa using hc32)
  rw [har]
  have hg2 : (ignore { s.lex with width := 1 }).input.get?
      (ignore { s.lex with width := 1 }).pos = some c := hg
  rw [nextChar_unit _ c hg2 hc55]
  rfl

/-! ### Claim theorems -/

/-- `peek` cannot return a BMP non-surrogate code point that is not the unit
at the cursor. -/
theorem peek_ne_of_get?_ne (S : LexSt) (u : Nat) (hu : u < 55296)
    (hne : S.input.get? S.pos ≠ some u) : (peek S).1 ≠ u := by
  unfold peek
  intro habs
  by_cases hend : S.input.length ≤ S.pos
  · rw [nextChar_eof S hend] at habs
    unfold eofCp at habs
    omega
  · have hcp : (nextChar S).1 = codePointAt S.input S.pos := by
      unfold nextChar
      rw [if_neg (by omega)]
    rw [hcp] at habs
    have hgu := codePointAt_unit S.input S.pos (by omega) (by rw [habs]; omega)
    rw [habs] at hgu
    exact hne hgu

/-- C8: two-character operators use one-character lookahead with maximal
munch: `!` followed by `=` yields one NEQ token valued `"!="`, while `!` not
followed by `=` (including at end of input) produces an Illegal token and
terminates the stream rather than a standalone token; `=` followed by `=`
yields EQ valued `"=="`, otherwise Assign valued `"="`.  Stated for every
lexer state about to scan the character in the expression state. -/
theorem two_char_operator_lookahead (s : NSt) :
    (s.lex.input.get? s.lex.pos = some 33 →
      (s.lex.input.get? (s.lex.pos + 1) = some 61 →
        (lexExpression s).1.lex.tokens =
          s.lex.tokens ++ [⟨TokenTag.lang TokenType.NEQ, [33, 61]⟩] ∧
        (lexExpression s).2 = some StateTag.expression) ∧
      (s.lex.input.get? (s.lex.pos + 1) ≠ some 61 →
        (lexExpression s).1.lex.tokens = s.lex.tokens ++
          [⟨TokenTag.Illegal, strUnits "expected " ++ [39, 61, 39] ++
            strUnits ", found " ++ [39] ++ cpUnits 33 ++ [39]⟩] ∧
        (lexExpression s).2 = none)) ∧
    (s.lex.input.get? s.lex.pos = some 61 →
      (s.lex.input.get? (s.lex.pos + 1) = some 61 →
        (lexExpression s).1.lex.tokens =
          s.lex.tokens ++ [⟨TokenTag.lang TokenType.EQ, [61, 61]⟩] ∧
        (lexExpression s).2 = some StateTag.expression) ∧
      (s.lex.input.get? (s.lex.pos + 1) ≠ some 61 →
        (lexExpression s).1.lex.tokens =
          s.lex.tokens ++ [⟨TokenTag.lang TokenType.Assign, [61]⟩] ∧
        (lexExpression s).2 = some StateTag.expression)) := by
  constructor
  · intro h33
    have hL := lexExpression_unit s 33 h33 (by omega) (by omega)
    set L : LexSt := { s.lex with journal := s.lex.journal ++ [pending s.lex], start := s.lex.pos, width := 1, pos := s.lex.pos + 1 } with hLdef
    have hLin : L.input = s.lex.input := by rw [hLdef]
    have hLpos : L.pos = s.lex.pos + 1 := by rw [hLdef]
    have hLstart : L.start = s.lex.pos := by rw [hLdef]
    have hLtok : L.tokens = s.lex.tokens := by rw [hLdef]
    rw [hL]
    simp only [exprDispatch, show exprCase 33 = ExprCase.bang from by decide]
    constructor
    · intro h61
      have h61L : L.input.get? L.pos = some 61 := by
        rw [hLin, hLpos]
        exact h61
      rw [peek_unit L 61 h61L (by omega), if_pos rfl]
      have h61X : ({ L with width := 1 } : LexSt).input.get?
          ({ L with width := 1 } : LexSt).pos = some 61 := h61L
      rw [nextChar_unit { L with width := 1 } 61 h61X (by omega)]
      refine ⟨?_, rfl⟩
      simp only [emit_tokens]
      rw [hLtok]
      congr 2
      congr 1
      apply pending_pair
      · show L.input.get? L.start = some 33
        rw [hLin, hLstart]
        exact h33
      · show L.input.get? (L.start + 1) = some 61
        rw [hLin, hLstart]
        exact h61
      · rfl
    · intro h61ne
      have hpkne : (peek L).1 ≠ 61 := by
        apply peek_ne_of_get?_ne L 61 (by omega)
        rw [hLin, hLpos]
        exact h61ne
      rw [if_neg hpkne]
      refine ⟨?_, rfl⟩
      simp only [errorf_tokens, peek_tokens]
      try rw [hLtok]
  · intro h61a
    have hL := lexExpression_unit s 61 h61a (by omega) (by omega)
    set L : LexSt := { s.lex with journal := s.lex.journal ++ [pending s.lex], start := s.lex.pos, width := 1, pos := s.lex.pos + 1 } with hLdef
    have hLin : L.input = s.lex.input := by rw [hLdef]
    have hLpos : L.pos = s.lex.pos + 1 := by rw [hLdef]
    have hLstart : L.start = s.lex.pos := by rw [hLdef]
    have hLtok : L.tokens = s.lex.tokens := by rw [hLdef]
    rw [hL]
    simp only [exprDispatch, show exprCase 61 = ExprCase.eqAssign from by decide]
    constructor
    · intro h61
      have h61L : L.input.get? L.pos = some 61 := by
        rw [hLin, hLpos]
        exact h61
      rw [peek_unit L 61 h61L (by omega), if_pos rfl]
      have h61X : ({ L with width := 1 } : LexSt).input.get?
          ({ L with width := 1 } : LexSt).pos = some 61 := h61L
      rw [nextChar_unit { L with width := 1 } 61 h61X (by omega)]
      refine ⟨?_, rfl⟩
      simp only [emit_tokens]
      rw [hLtok]
      congr 2
      congr 1
      apply pending_pair
      · show L.input.get? L.start = some 61
        rw [hLin, hLstart]
        exact h61a
      · show L.input.get? (L.start + 1) = some 61
        rw [hLin, hLstart]
        exact h61
      · rfl
    · intro h61ne
      have hpkne : (peek L).1 ≠ 61 := by
        apply peek_ne_of_get?_ne L 61 (by omega)
        rw [hLin, hLpos]
        exact h61ne
      rw [if_neg hpkne]
      refine ⟨?_, rfl⟩
      simp only [emit_tokens, peek_tokens]
      rw [hLtok]
      congr 2
      congr 1
      rw [pending_peek]
      apply pending_single
      · show L.input.get? L.start = some 61
        rw [hLin, hLstart]
        exact h61a
      · rfl

/-- C8 witness: the four lookahead behaviours at concrete inputs
`"!="`, `"!"`, `"=="`, `"=x"`. -/
theorem two_char_operator_lookahead_witness :
    ((lexExpression (initNSt (strUnits "!="))).1.lex.tokens =
        [⟨TokenTag.lang TokenType.NEQ, [33, 61]⟩] ∧
      (lexExpression (initNSt (strUnits "!="))).2 = some StateTag.expression) ∧
    ((lexExpression (initNSt (strUnits "!"))).1.lex.tokens =
        [⟨TokenTag.Illegal, strUnits "expected " ++ [39, 61, 39] ++
          strUnits ", found " ++ [39] ++ cpUnits 33 ++ [39]⟩] ∧
      (lexExpression (initNSt (strUnits "!"))).2 = none) ∧
    ((lexExpression (initNSt (strUnits "=="))).1.lex.tokens =
        [⟨TokenTag.lang TokenType.EQ, [61, 61]⟩] ∧
      (lexExpression (initNSt (strUnits "=="))).2 = some StateTag.expression) ∧
    ((lexExpression (initNSt (strUnits "=x"))).1.lex.tokens =
        [⟨TokenTag.lang TokenType.Assign, [61]⟩] ∧
      (lexExpression (initNSt (strUnits "=x"))).2 = some StateTag.expression) := by
  refine ⟨?_, ?_, ?_, ?_⟩
  · exact ((two_char_operator_lookahead (initNSt (strUnits "!="))).1 (by decide)).1 (by decide)
  · exact ((two_char_operator_lookahead (initNSt (strUnits "!"))).1 (by decide)).2 (by decide)
  · exact ((two_char_operator_lookahead (initNSt (strUnits "=="))).2 (by decide)).1 (by decide)
  · exact ((two_char_operator_lookahead (initNSt (strUnits "=x"))).2 (by decide)).2 (by decide)

/-- C3: for every input, the token stream contains exactly one terminal
token — one EOF or one Illegal, never both and never more than one — and it
is the last token of the stream; when the stream carries no Illegal token
(well-formed input), it ends with exactly one EOF token. -/
theorem tokenize_single_terminal (input : List Nat) :
    ∃ pre t, tokenize input = pre ++ [t] ∧
      (∀ tok ∈ pre, isTerminalTag tok.type = false) ∧
      isTerminalTag t.type = true ∧
      terminalCount (tokenize input) = 1 ∧
      ((∀ tok ∈ tokenize input, tok.type ≠ TokenTag.Illegal) →
        t.type = TokenTag.EOF ∧ countTag (tokenize input) TokenTag.EOF = 1) := by
  obtain ⟨new, hnew, hspec⟩ := tokenize_stepSpec input
  obtain ⟨pre, t, hdecomp, hpre, hterm, _⟩ := hspec.term_of_none (tokenizeRun_none input)
  have hstream : tokenize input = pre ++ [t] := by rw [hnew, hdecomp]
  have hfp : pre.filter (fun tok => isTerminalTag tok.type) = [] := by
    rw [List.filter_eq_nil_iff]
    intro tok hm
    simp [hpre tok hm]
  refine ⟨pre, t, hstream, hpre, hterm, ?_, ?_⟩
  · unfold terminalCount
    rw [hstream, List.filter_append, hfp]
    simp [hterm]
  · intro hnoill
    have ht2 : t.type = TokenTag.EOF := by
      rcases isTerminalTag_cases t.type hterm with h | h
      · exact h
      · exact absurd h (hnoill t (by
          rw [hstream]
          exact List.mem_append_right _ (List.mem_singleton_self t)))
    refine ⟨ht2, ?_⟩
    unfold countTag
    rw [hstream, List.filter_append]
    have hfp2 : pre.filter (fun tok => tok.type == TokenTag.EOF) = [] := by
      rw [List.filter_eq_nil_iff]
      intro tok hm
      have hne := (isTerminalTag_false_ne tok.type (hpre tok hm)).1
      simp [hne]
    rw [hfp2]
    simp [ht2]

/-- C4: `backUp` immediately after `nextChar` rewinds the cursor by exactly
the recorded width of the code point `nextChar` returned (2 units for an
astral code point, 1 otherwise, 0 at end of input), restoring the cursor to
its previous position; hence `peek` returns the next code point and leaves
the cursor position unchanged. -/
theorem nextChar_backUp_exact (s : LexSt) :
    (backUp (nextChar s).2).pos = s.pos ∧
    (nextChar s).2.pos = s.pos + (nextChar s).2.width ∧
    (peek s).1 = (nextChar s).1 ∧
    (peek s).2.pos = s.pos ∧
    (s.input.length ≤ s.pos → (nextChar s).2.width = 0) ∧
    (s.pos < s.input.length →
      (nextChar s).1 = codePointAt s.input s.pos ∧
      (nextChar s).2.width = cpWidth (codePointAt s.input s.pos)) := by
  refine ⟨?_, ?_, rfl, peek_pos s, ?_, ?_⟩
  · unfold backUp
    exact nextChar_pos_sub s
  · unfold nextChar
    split <;> simp
  · intro h
    rw [nextChar_eof s h]
  · intro h
    unfold nextChar
    rw [if_neg (by omega)]
    exact ⟨rfl, rfl⟩

/-- C4 witness: exercised on an input starting with a surrogate pair
(U+1D800, two UTF-16 units): the recorded width is 2 and `backUp` restores
position 0. -/
theorem nextChar_backUp_exact_witness :
    (backUp (nextChar (initLexSt [55348, 56832, 97])).2).pos = 0 ∧
    (nextChar (initLexSt [55348, 56832, 97])).2.width = 2 := by
  have h := nextChar_backUp_exact (initLexSt [55348, 56832, 97])
  refine ⟨h.1, ?_⟩
  have h2 := h.2.2.2.2.2 (by decide)
  rw [h2.2]
  decide

/-- C6 counterexample: on the input `"    a\n  b\n"` the lexer emits a
Dedent token whose value is the two leading spaces of the dedenting line,
not the empty string. -/
theorem dedent_empty_value_cex :
    ¬ (∀ tok ∈ tokenize (strUnits "    a\n  b\n"),
        tok.type = TokenTag.lang TokenType.Dedent → tok.value = []) := by
  decide

/-- C6 amended: every Dedent token's value is a (possibly empty) run of
spaces — the first Dedent emitted for a line carries that line's leading
spaces as its value; any further Dedent of the same line is empty. -/
theorem dedent_values_all_spaces (input : List Nat) (tok : Token)
    (hm : tok ∈ tokenize input) (hty : tok.type = TokenTag.lang TokenType.Dedent) :
    tok.value.all (fun u => u == 32) = true := by
  obtain ⟨new, hnew, hspec⟩ := tokenize_stepSpec input
  have h := hspec.dedent_space tok (by rw [← hnew]; exact hm) hty
  simp only [List.all_eq_true, beq_iff_eq]
  exact h

/-- C6 amended witness: the nonempty Dedent value `"  "` of the
counterexample input is indeed a run of spaces. -/
theorem dedent_values_all_spaces_witness :
    (⟨TokenTag.lang TokenType.Dedent, [32, 32]⟩ : Token) ∈
      tokenize (strUnits "    a\n  b\n") ∧
    ([32, 32] : List Nat).all (fun u => u == 32) = true := by
  refine ⟨by decide, ?_⟩
  exact dedent_values_all_spaces (strUnits "    a\n  b\n")
    ⟨TokenTag.lang TokenType.Dedent, [32, 32]⟩ (by decide) rfl

/-- C9 counterexample: the input consisting of the unit 0xFFFF (the in-band
eof sentinel) followed by `" a"` tokenizes to a stream ending in EOF, yet
the concatenation of emitted values and ignored spans is only the sentinel
unit — the trailing `" a"` is never consumed. -/
theorem lexeme_concat_cex :
    lastTagIs (tokenize (65535 :: strUnits " a")) TokenTag.EOF = true ∧
    (journalOf (65535 :: strUnits " a")).flatten ≠ 65535 :: strUnits " a" := by
  refine ⟨by decide, by decide⟩

/-- C9 amended: for every input free of the in-band sentinel unit 0xFFFF
whose tokenization terminates in EOF, concatenating every emitted token
value together with every span discarded by `ignore`, in order of
occurrence (the journal), reproduces the input exactly. -/
theorem lexeme_concat_reproduces (input : List Nat)
    (hmem : 65535 ∉ input)
    (heof : lastTagIs (tokenize input) TokenTag.EOF = true) :
    (journalOf input).flatten = input := by
  obtain ⟨new, hnew, hspec⟩ := tokenize_stepSpec input
  obtain ⟨pre, t, hdecomp, hpre, hterm, heofc⟩ :=
    hspec.term_of_none (tokenizeRun_none input)
  have hlast : (tokenize input).getLast? = some t := by
    rw [hnew, hdecomp]
    exact List.getLast?_concat _
  have hteof : t.type = TokenTag.EOF := by
    unfold lastTagIs at heof
    rw [hlast] at heof
    exact beq_iff_eq.mp heof
  have hlen := heofc hteof hmem
  have hinv := hspec.inv9 (by simp [initNSt, initLexSt]) (by simp [initNSt, initLexSt])
  unfold journalOf
  rw [hinv.1, show (tokenizeRun input).1.lex.input = input from hspec.input_eq]
  exact List.take_of_length_le hlen

/-- C9 amended witness: on `"five = 5"`, which terminates in EOF, the
journal concatenation reproduces the input. -/
theorem lexeme_concat_reproduces_witness :
    65535 ∉ strUnits "five = 5" ∧
    lastTagIs (tokenize (strUnits "five = 5")) TokenTag.EOF = true ∧
    (journalOf (strUnits "five = 5")).flatten = strUnits "five = 5" :=
  ⟨by decide, by decide, lexeme_concat_reproduces _ (by decide) (by decide)⟩

/-- C1 (evaluation at the failing input): on `"a\n  b\n    c\nd\n"` the
final line returns to column 0 from two indentation levels, yet the lexer
emits exactly ONE Dedent token (the effective indentation stack never holds
more than one level: `lexIndentation` pops the top and pushes the new width
back once per line, so the dedent loop runs a single iteration and the
inconsistent-dedent branch is unreachable). -/
theorem dedent_two_levels_eval :
    tokenize (strUnits "a\n  b\n    c\nd\n") =
      [⟨TokenTag.lang TokenType.Identifier, strUnits "a"⟩,
       ⟨TokenTag.lang TokenType.Newline, strUnits "\n"⟩,
       ⟨TokenTag.lang TokenType.Indent, strUnits "  "⟩,
       ⟨TokenTag.lang TokenType.Identifier, strUnits "b"⟩,
       ⟨TokenTag.lang TokenType.Newline, strUnits "\n"⟩,
       ⟨TokenTag.lang TokenType.Indent, strUnits "    "⟩,
       ⟨TokenTag.lang TokenType.Identifier, strUnits "c"⟩,
       ⟨TokenTag.lang TokenType.Newline, strUnits "\n"⟩,
       ⟨TokenTag.lang TokenType.Dedent, []⟩,
       ⟨TokenTag.lang TokenType.Identifier, strUnits "d"⟩,
       ⟨TokenTag.lang TokenType.Newline, strUnits "\n"⟩,
       ⟨TokenTag.EOF, []⟩] ∧
    countTag (tokenize (strUnits "a\n  b\n    c\nd\n"))
      (TokenTag.lang TokenType.Dedent) = 1 := by
  refine ⟨by decide, by decide⟩

/-- C2 (evaluation at the failing input): `"    a\n  b\nc\n"` is well-formed
(its stream ends in EOF with no Illegal token) yet carries one Indent and
two Dedents — the totals differ, and the running Dedent count overtakes the
running Indent count. -/
theorem indent_dedent_balance_eval :
    countTag (tokenize (strUnits "    a\n  b\nc\n"))
      (TokenTag.lang TokenType.Indent) = 1 ∧
    countTag (tokenize (strUnits "    a\n  b\nc\n"))
      (TokenTag.lang TokenType.Dedent) = 2 ∧
    lastTagIs (tokenize (strUnits "    a\n  b\nc\n")) TokenTag.EOF = true ∧
    countTag (tokenize (strUnits "    a\n  b\nc\n")) TokenTag.Illegal = 0 := by
  refine ⟨by decide, by decide, by decide, by decide⟩

/-- C5 (evaluation at the failing input): the identifier `constructor` is
not an own key of the keyword object, but the bare index lookup finds the
inherited `Object.prototype.constructor` (truthy), so the emitted token's
tag is that inherited value — not the generic Identifier tag. -/
theorem constructor_lookup_eval :
    tokenize (strUnits "constructor") =
      [⟨TokenTag.jsInherited (strUnits "constructor"), strUnits "constructor"⟩,
       ⟨TokenTag.EOF, []⟩] ∧
    (tokenize (strUnits "constructor")).head?.map Token.type ≠
      some (TokenTag.lang TokenType.Identifier) := by
  refine ⟨by decide, by decide⟩

/-- C10: once the terminal token has been returned (terminal state, empty
queue), every further `nextToken` call throws `"Bad lexer state!"`; and since
the iterator marks `done` only on EOF, draining the stream of an input with
a lexical error (here `"!"`) yields the Illegal token with `done = false`
and then the exception on the next pull. -/
theorem nextToken_after_terminal :
    (∀ (fuel : Nat) (n : NSt), n.lex.tokens = [] →
      nextTokenF (fuel + 1) none n =
        some (Except.error (strUnits "Bad lexer state!"))) ∧
    pullTwice (strUnits "!") =
      (some (Except.ok (⟨TokenTag.Illegal,
          strUnits "expected " ++ [39, 61, 39] ++ strUnits ", found " ++
            [39] ++ cpUnits 33 ++ [39]⟩, false)),
       some (Except.error (strUnits "Bad lexer state!"))) := by
  constructor
  · intro fuel n h
    obtain ⟨⟨inp, st0, pos0, w0, toks, j0⟩, ind⟩ := n
    simp only at h
    subst h
    rfl
  · rfl

/-- C10 witness: the general clause applied at the concrete empty-queue
terminal state. -/
theorem nextToken_after_terminal_witness :
    nextTokenF 8 none (initNSt []) =
      some (Except.error (strUnits "Bad lexer state!")) :=
  nextToken_after_terminal.1 7 (initNSt []) rfl

/-! ### C7: a maximal digit run immediately followed by a letter -/

theorem get?_of_drop_cons (l : List Nat) (p : Nat) (r : Nat) (tl : List Nat)
    (h : l.drop p = r :: tl) : l.get? p = some r := by
  have h2 : (l.drop p).head? = some r := by rw [h]; rfl
  rw [List.head?_drop] at h2
  rw [List.get?_eq_getElem?]
  exact h2

/-- A failing `accept` leaves everything but the recorded width unchanged. -/
theorem accept_false_shape (v : List Nat) (s : LexSt) (h : (accept v s).1 = false) :
    ∃ w, (accept v s).2 = { s with width := w } := by
  refine ⟨(accept v s).2.width, ?_⟩
  have h1 := accept_input v s
  have h2 := accept_start v s
  have h3 := accept_tokens v s
  have h4 := accept_journal v s
  have h5 := accept_false_pos v s h
  cases hs2 : (accept v s).2 with
  | mk inp st p w toks j =>
    rw [hs2] at h1 h2 h3 h4 h5
    cases s
    dsimp only at h1 h2 h3 h4 h5
    subst h1; subst h2; subst h3; subst h4; subst h5
    rfl

/-- The `while (accept(valid)) {}` loop consumes exactly a maximal run of
units of the alphabet: given enough fuel, on input whose remaining suffix is
`run ++ rest` with every unit of `run` in the alphabet and the first unit of
`rest` (if any) outside it, the cursor lands exactly after `run`. -/
theorem acceptRunGo_run (v : List Nat) (hv : ∀ u ∈ v, u < 55296)
    (rest : List Nat)
    (hstop : ∀ u, rest.head? = some u → u ∉ v)
    (hrest55 : ∀ u, rest.head? = some u → u < 55296) :
    ∀ (run : List Nat), (∀ u ∈ run, u ∈ v) →
      ∀ (fuel : Nat) (s : LexSt), run.length + 1 ≤ fuel →
        s.input.drop s.pos = run ++ rest →
        ∃ w, acceptRunGo v fuel s = { s with width := w, pos := s.pos + run.length } := by
  intro run
  induction run with
  | nil =>
    intro _ fuel s hfuel hdrop
    rcases fuel with _ | fuel
    · omega
    · rw [List.nil_append] at hdrop
      have hfalse : (accept v s).1 = false := by
        rcases hr : rest with _ | ⟨u, rest2⟩
        · rw [hr] at hdrop
          have hend : s.input.length ≤ s.pos := by
            have hl := congrArg List.length hdrop
            rw [List.length_drop] at hl
            simp only [List.length_nil] at hl
            omega
          have hnv : eofCp ∉ v := by
            intro hmem
            have := hv _ hmem
            unfold eofCp at this
            omega
          unfold accept
          rw [nextChar_eof s hend, if_neg hnv]
        · rw [hr] at hstop hrest55
          rw [hr] at hdrop
          have hg : s.input.get? s.pos = some u := get?_of_drop_cons _ _ _ _ hdrop
          rw [accept_false_of_unit v s u hg (hrest55 u rfl) (hstop u rfl)]
      obtain ⟨w, hw⟩ := accept_false_shape v s hfalse
      refine ⟨w, ?_⟩
      have hstep : acceptRunGo v (fuel + 1) s = (accept v s).2 := by
        unfold acceptRunGo
        rw [if_neg (by simp [hfalse])]
      rw [hstep, hw]
      rfl
  | cons r run2 ih =>
    intro hrun fuel s hfuel hdrop
    rcases fuel with _ | fuel
    · simp only [List.length_cons] at hfuel
      omega
    · have hrv : r ∈ v := hrun r (by simp)
      have hr55 : r < 55296 := hv r hrv
      have hg : s.input.get? s.pos = some r := by
        apply get?_of_drop_cons _ _ _ (run2 ++ rest)
        rw [hdrop]
        rfl
      have hacc := accept_true_of_unit v s r hg hr55 hrv
      have hlt : s.pos < s.input.length := get?_lt _ _ _ hg
      have hdrop2 : s.input.drop (s.pos + 1) = run2 ++ rest := by
        have h2 : s.input.drop s.pos = s.input[s.pos] :: s.input.drop (s.pos + 1) :=
          List.drop_eq_getElem_cons hlt
        rw [hdrop, List.cons_append] at h2
        injection h2 with h3 h4
        exact h4.symm
      have hfuel2 : run2.length + 1 ≤ fuel := by
        simp only [List.length_cons] at hfuel
        omega
      obtain ⟨w, hw⟩ := ih (fun u hu => hrun u (by simp [hu])) fuel
        { s with width := 1, pos := s.pos + 1 } hfuel2 hdrop2
      refine ⟨w, ?_⟩
      have hstep : acceptRunGo v (fuel + 1) s =
          acceptRunGo v fuel { s with width := 1, pos := s.pos + 1 } := by
        show (if (accept v s).1 = true then acceptRunGo v fuel (accept v s).2
          else (accept v s).2) = _
        rw [hacc]
        rfl
      rw [hstep, hw]
      show ({ s with width := w, pos := s.pos + 1 + run2.length } : LexSt) = _
      rw [show s.pos + 1 + run2.length = s.pos + (r :: run2).length from by
        simp only [List.length_cons]
        omega]

/-- `acceptRun` consumes exactly the maximal alphabet run at the cursor. -/
theorem acceptRun_run (v : List Nat) (hv : ∀ u ∈ v, u < 55296)
    (run rest : List Nat) (hrun : ∀ u ∈ run, u ∈ v)
    (hstop : ∀ u, rest.head? = some u → u ∉ v)
    (hrest55 : ∀ u, rest.head? = some u → u < 55296)
    (s : LexSt) (hdrop : s.input.drop s.pos = run ++ rest) :
    ∃ w, acceptRun v s = { s with width := w, pos := s.pos + run.length } := by
  by_cases hle : s.pos ≤ s.input.length
  · have hlen := congrArg List.length hdrop
    rw [List.length_drop, List.length_append] at hlen
    exact acceptRunGo_run v hv rest hstop hrest55 run hrun
      (s.input.length + 1 - s.pos) s (by omega) hdrop
  · have hnil : run ++ rest = ([] : List Nat) := by
      rw [← hdrop]
      exact List.drop_eq_nil_of_le (by omega)
    rcases List.append_eq_nil.mp hnil with ⟨hrn, -⟩
    subst hrn
    refine ⟨s.width, ?_⟩
    unfold acceptRun
    rw [show s.input.length + 1 - s.pos = 0 from by omega]
    rfl

/-- `lexIndentation` from the initial state, when the first unit is an
ordinary character (no newline, no space): both runs consume nothing, the
zero indentation matches the stack top, and the machine moves to the
expression state having only recorded the empty ignored span. -/
theorem step_indentation_init (input : List Nat) (u : Nat)
    (hg : input.get? 0 = some u) (hu : u < 55296)
    (hnl : u ∉ newlineCps) (h32 : u ≠ 32) :
    lexIndentation (initNSt input) =
      (⟨⟨input, 0, 0, 1, [], [[]]⟩, [0]⟩, some StateTag.expression) := by
  simp only [lexIndentation]
  rw [acceptRun_stuck_eq newlineCps (initNSt input).lex u hg hu hnl]
  have hg2 : (ignore { (initNSt input).lex with width := 1 }).input.get?
      (ignore { (initNSt input).lex with width := 1 }).pos = some u := hg
  rw [acceptRun_stuck_eq [32] _ u hg2 hu (by simpa using h32)]
  rfl

/-- C7: a maximal digit run immediately followed by a letter or underscore is
a lexical error, never truncated to an Int token: on any input consisting of
a nonempty digit run, then a letter/underscore, then anything, the lexer
produces a single Illegal token reporting bad number syntax (quoting the run
and the offending letter), with no tokens following it. -/
theorem number_letter_error (ds : List Nat) (c : Nat) (rest : List Nat)
    (hds : ds ≠ []) (hd : ∀ u ∈ ds, u ∈ digitCps) (hc : c ∈ alphaCps) :
    tokenize (ds ++ c :: rest) =
      [⟨TokenTag.Illegal,
        strUnits "bad number syntax: " ++ [39] ++ (ds ++ [c]) ++ [39]⟩] := by
  rcases ds with _ | ⟨d, ds2⟩
  · exact absurd rfl hds
  have hd0 : d ∈ digitCps := hd d (by simp)
  have hdb := digit_bounds d hd0
  have hcb := alpha_bounds c hc
  have hc55 : c < 55296 := by rcases hcb with h | h | h <;> omega
  have hd55 : d < 55296 := by omega
  have h32 : d ≠ 32 := by omega
  have hnl : d ∉ newlineCps := by
    intro hmem
    have : d = 10 ∨ d = 13 := by simpa [newlineCps] using hmem
    omega
  have hg0 : ((d :: ds2) ++ c :: rest).get? 0 = some d := rfl
  have hs1 : step StateTag.indentation (initNSt ((d :: ds2) ++ c :: rest)) =
      (⟨⟨(d :: ds2) ++ c :: rest, 0, 0, 1, [], [[]]⟩, [0]⟩, some StateTag.expression) :=
    step_indentation_init ((d :: ds2) ++ c :: rest) d hg0 hd55 hnl h32
  have hs2 : step StateTag.expression
      (⟨⟨(d :: ds2) ++ c :: rest, 0, 0, 1, [], [[]]⟩, [0]⟩ : NSt) =
      (⟨⟨(d :: ds2) ++ c :: rest, 0, 1, 1, [], [[], []]⟩, [0]⟩, some StateTag.number) := by
    show lexExpression _ = _
    rw [lexExpression_unit _ d hg0 hd55 h32]
    simp only [exprDispatch, exprCase_digit d hd0]
    rfl
  have hstop : ∀ u, (c :: rest).head? = some u → u ∉ digitCps := by
    intro u hu
    have hcu : c = u := Option.some_injective _ hu
    rw [← hcu]
    exact alpha_not_digit c hc
  have hrest55 : ∀ u, (c :: rest).head? = some u → u < 55296 := by
    intro u hu
    have hcu : c = u := Option.some_injective _ hu
    rw [← hcu]
    exact hc55
  have hdv : ∀ u ∈ digitCps, u < 55296 := by
    intro u hu
    have := digit_bounds u hu
    omega
  obtain ⟨w, hrw⟩ := acceptRun_run digitCps hdv ds2 (c :: rest)
    (fun u hu => hd u (by simp [hu])) hstop hrest55
    (⟨(d :: ds2) ++ c :: rest, 0, 1, 1, [], [[], []]⟩ : LexSt) rfl
  have hgc : ((d :: ds2) ++ c :: rest).get? (1 + ds2.length) = some c := by
    have hlen : (d :: ds2).length ≤ 1 + ds2.length := by
      simp only [List.length_cons]
      omega
    rw [List.get?_append_right hlen]
    rw [show 1 + ds2.length - (d :: ds2).length = 0 from by
      simp only [List.length_cons]
      omega]
    rfl
  have hs3 : step StateTag.number
      (⟨⟨(d :: ds2) ++ c :: rest, 0, 1, 1, [], [[], []]⟩, [0]⟩ : NSt) =
      (⟨⟨(d :: ds2) ++ c :: rest, 0, 1 + ds2.length + 1, 1,
          [⟨TokenTag.Illegal,
            strUnits "bad number syntax: " ++ [39] ++ ((d :: ds2) ++ [c]) ++ [39]⟩],
          [[], []]⟩, [0]⟩, none) := by
    show lexNumber _ = _
    simp only [lexNumber]
    rw [hrw]
    rw [peek_unit _ c hgc hc55]
    rw [if_pos (show c ∈ alphaCps from hc)]
    rw [nextChar_unit _ c hgc hc55]
    have hpend : ∀ (S : LexSt), S.input = (d :: ds2) ++ c :: rest → S.start = 0 →
        S.pos = 1 + ds2.length + 1 → pending S = (d :: ds2) ++ [c] := by
      intro S hin hst hpos
      unfold pending
      rw [hin, hst, hpos, List.drop_zero, Nat.sub_zero]
      rw [show 1 + ds2.length + 1 = (d :: ds2).length + 1 from by
        simp only [List.length_cons]
        omega]
      rw [List.take_append 1]
      rfl
    rw [hpend _ rfl rfl rfl]
    rfl
  obtain ⟨k, hk⟩ : ∃ k, runFuel ((d :: ds2) ++ c :: rest) = k + 3 := by
    refine ⟨2 * ((d :: ds2) ++ c :: rest).length - 1, ?_⟩
    unfold runFuel
    have h1 : 1 ≤ ((d :: ds2) ++ c :: rest).length := by
      simp only [List.length_append, List.length_cons]
      omega
    omega
  unfold tokenize tokenizeRun
  rw [hk]
  rw [show runAux (k + 3) (some StateTag.indentation) (initNSt ((d :: ds2) ++ c :: rest)) =
      runAux (k + 2) (some StateTag.expression)
        (⟨⟨(d :: ds2) ++ c :: rest, 0, 0, 1, [], [[]]⟩, [0]⟩ : NSt) from by
    show runAux (k + 2 + 1) (some StateTag.indentation) (initNSt ((d :: ds2) ++ c :: rest)) = _
    rw [runAux_succ, hs1]]
  rw [show runAux (k + 2) (some StateTag.expression)
        (⟨⟨(d :: ds2) ++ c :: rest, 0, 0, 1, [], [[]]⟩, [0]⟩ : NSt) =
      runAux (k + 1) (some StateTag.number)
        (⟨⟨(d :: ds2) ++ c :: rest, 0, 1, 1, [], [[], []]⟩, [0]⟩ : NSt) from by
    show runAux (k + 1 + 1) (some StateTag.expression) _ = _
    rw [runAux_succ, hs2]]
  rw [show runAux (k + 1) (some StateTag.number)
        (⟨⟨(d :: ds2) ++ c :: rest, 0, 1, 1, [], [[], []]⟩, [0]⟩ : NSt) =
      runAux k none
        (⟨⟨(d :: ds2) ++ c :: rest, 0, 1 + ds2.length + 1, 1,
          [⟨TokenTag.Illegal,
            strUnits "bad number syntax: " ++ [39] ++ ((d :: ds2) ++ [c]) ++ [39]⟩],
          [[], []]⟩, [0]⟩ : NSt) from by
    rw [runAux_succ, hs3]]
  rw [runAux_none]

/-- C7 witness: the input `"5x"` yields the single Illegal token whose value
reads bad number syntax quoting `5x`, with nothing after it. -/
theorem number_letter_error_witness :
    tokenize (strUnits "5" ++ 120 :: []) =
      [⟨TokenTag.Illegal,
        strUnits "bad number syntax: " ++ [39] ++ (strUnits "5" ++ [120]) ++ [39]⟩] :=
  number_letter_error (strUnits "5") 120 [] (by decide) (by decide) (by decide)

end Nadder
